import Mathlib

/-!
Verification of the procedural noise library (`noise.go`).

A shallow embedding of `noise.go` and theorems about it.

Modelling conventions.

* `uint32` values are natural numbers; every arithmetic step of the hash is
  followed by an explicit reduction modulo `2^32` (`wrap32`).
* The exact model.  `float64` values are exact rationals: the embedding
  describes the computation under ideal (rounding-free, overflow-free)
  arithmetic on finite numbers.  A function returning `float64` returns
  `Except Fault ℚ`.  A division whose divisor is zero leaves the finite numbers
  in IEEE arithmetic (the result is an infinity or a NaN); the embedding reports
  it as `Fault.divByZero`.  Reaching `panic("unreachable")` is reported as
  `Fault.unreachable`.  Division by a non-zero literal (`/2`) is total and
  written with `/`.
* The binary64 model.  `F64` is IEEE 754 binary64 with signed zeros,
  infinities, one NaN and subnormals; `F64.add`, `F64.sub`, `F64.mul` and
  `F64.div` round the exact result to nearest, ties to even, one operation at
  a time (no fused multiply-add).  `BiasF`, `GainF` and `Fractal2F` are
  `Bias`, `Gain` and `Fractal2` of `noise.go` over `F64`.  They are evaluated
  at concrete inputs to show where rounding, absorption or overflow make the
  program differ from the exact model; statements proved in the exact model
  carry bounds on their parameters that keep the binary64 evaluation away
  from those inputs.
* `math.Floor` is the integer floor; the conversion `uint32(·)` of the floor
  is reduction modulo `2^32`.
-/

namespace Noise

/-! ## Faults and division -/

/-- The ways an evaluation can leave the finite numbers or abort. -/
inductive Fault where
  | divByZero
  | unreachable
  deriving DecidableEq, Repr

/-- Division of two floats: a zero divisor is a fault. -/
def fdiv (a b : ℚ) : Except Fault ℚ :=
  if b = 0 then .error .divByZero else .ok (a / b)

/-! ## Hash engine -/

/-- Reduction of a natural number to an unsigned 32-bit value. -/
def wrap32 (n : ℕ) : ℕ := n % 4294967296

/-- PCG4D, `Hash4` of `noise.go`. -/
def Hash4 (x y z w : ℕ) : ℕ × ℕ × ℕ × ℕ :=
  let x := wrap32 (x * 1664525)
  let y := wrap32 (y * 1664525)
  let z := wrap32 (z * 1664525)
  let w := wrap32 (w * 1664525)
  let x := wrap32 (x + 1013904223)
  let y := wrap32 (y + 1013904223)
  let z := wrap32 (z + 1013904223)
  let w := wrap32 (w + 1013904223)
  let x := wrap32 (x + wrap32 (y * w))
  let y := wrap32 (y + wrap32 (z * x))
  let z := wrap32 (z + wrap32 (x * y))
  let w := wrap32 (w + wrap32 (y * z))
  let x := x ^^^ (x >>> 16)
  let y := y ^^^ (y >>> 16)
  let z := z ^^^ (z >>> 16)
  let w := w ^^^ (w >>> 16)
  let x := wrap32 (x + wrap32 (y * w))
  let y := wrap32 (y + wrap32 (z * x))
  let z := wrap32 (z + wrap32 (x * y))
  let w := wrap32 (w + wrap32 (y * z))
  (x, y, z, w)

/-- PCG3D, `Hash3` of `noise.go`. -/
def Hash3 (x y z : ℕ) : ℕ × ℕ × ℕ :=
  let x := wrap32 (x * 1664525)
  let y := wrap32 (y * 1664525)
  let z := wrap32 (z * 1664525)
  let x := wrap32 (x + 1013904223)
  let y := wrap32 (y + 1013904223)
  let z := wrap32 (z + 1013904223)
  let x := wrap32 (x + wrap32 (y * z))
  let y := wrap32 (y + wrap32 (z * x))
  let z := wrap32 (z + wrap32 (x * y))
  let x := x ^^^ (x >>> 16)
  let y := y ^^^ (y >>> 16)
  let z := z ^^^ (z >>> 16)
  let x := wrap32 (x + wrap32 (y * z))
  let y := wrap32 (y + wrap32 (z * x))
  let z := wrap32 (z + wrap32 (x * y))
  (x, y, z)

/-- The first two outputs of `Hash3 x y 0`. -/
def Hash2 (x y : ℕ) : ℕ × ℕ :=
  let r := Hash3 x y 0
  (r.1, r.2.1)

/-- The first output of `Hash2 x 0`. -/
def Hash1 (x : ℕ) : ℕ :=
  (Hash2 x 0).1

/-! ## Gradient noise -/

/-- The quintic smoothing curve. -/
def fade (t : ℚ) : ℚ :=
  t * t * t * (t * (t * 6 - 15) + 10)

/-- Linear interpolation. -/
def lerp (a b t : ℚ) : ℚ :=
  a + t * (b - a)

/-- Dot product of the gradient selected by the hash of the lattice point
with the offset `(fracx, fracy)`.  The fall-through of the `switch` is the
`panic("unreachable")` of the source. -/
def graddot2 (seed gridx gridy : ℕ) (fracx fracy : ℚ) : Except Fault ℚ :=
  let h := (Hash3 seed gridx gridy).1
  match h &&& 7 with
  | 0 => .ok (fracx + fracy)
  | 1 => .ok (fracx - fracy)
  | 2 => .ok (-fracx + fracy)
  | 3 => .ok (-fracx - fracy)
  | 4 => .ok fracx
  | 5 => .ok (-fracx)
  | 6 => .ok fracy
  | 7 => .ok (-fracy)
  | _ => .error .unreachable

/-- The table of the eight gradient directions, in the order in which the
specification lists them; `graddot2` is compared with it in
`graddot2_table`. -/
def gradients : List (ℚ × ℚ) :=
  [(1, 1), (1, -1), (-1, 1), (-1, -1), (1, 0), (-1, 0), (0, 1), (0, -1)]

/-- A sampler returns a value at position `(x, y)`. -/
abbrev Sampler2 := ℚ → ℚ → Except Fault ℚ

/-- A shaping function, `func(float64) float64`. -/
abbrev Shaper := ℚ → Except Fault ℚ

/-- The conversion `uint32(g)` of an integral float. -/
def toUint32 (g : ℤ) : ℕ := (g % 4294967296).toNat

/-- Classic 2D gradient noise, `Perlin2` of `noise.go`. -/
def Perlin2 (seed : ℕ) : Sampler2 := fun x y => do
  let gridx : ℤ := ⌊x⌋
  let gridy : ℤ := ⌊y⌋
  let fracx : ℚ := x - gridx
  let fracy : ℚ := y - gridy
  let fadex := fade fracx
  let fadey := fade fracy
  let dot00 ← graddot2 seed (toUint32 gridx) (toUint32 gridy) fracx fracy
  let dot01 ← graddot2 seed (toUint32 (gridx + 1)) (toUint32 gridy) (fracx - 1) fracy
  let dot10 ← graddot2 seed (toUint32 gridx) (toUint32 (gridy + 1)) fracx (fracy - 1)
  let dot11 ← graddot2 seed (toUint32 (gridx + 1)) (toUint32 (gridy + 1)) (fracx - 1) (fracy - 1)
  pure (lerp (lerp dot00 dot01 fadex) (lerp dot10 dot11 fadex) fadey / 2 + 1 / 2)

/-! ## Fractal combinator -/

/-- The inner loop `for _, fn := range fns { v = fn(v) }`. -/
def applyChain : List Shaper → ℚ → Except Fault ℚ
  | [], v => .ok v
  | fn :: fns, v => do
    let v ← fn v
    applyChain fns v

/-- The local variables of `Fractal2` that the octave loop updates. -/
structure FractalState where
  total : ℚ
  freq : ℚ
  amp : ℚ
  max : ℚ
  deriving DecidableEq, Repr

/-- The state before the first octave. -/
def FractalState.init : FractalState :=
  { total := 0, freq := 1, amp := 1, max := 0 }

/-- One iteration of the octave loop of `Fractal2`. -/
def octaveStep (s : Sampler2) (persistence lacunarity : ℚ) (fns : List Shaper)
    (x y : ℚ) (st : FractalState) : Except Fault FractalState := do
  let v ← s (x * st.freq) (y * st.freq)
  let v ← applyChain fns v
  let v := v * st.amp
  pure { total := st.total + v
         max := st.max + st.amp
         freq := st.freq * lacunarity
         amp := st.amp * persistence }

/-- The octave loop run `k` times from the state `st`. -/
def octaveLoop (s : Sampler2) (persistence lacunarity : ℚ) (fns : List Shaper)
    (x y : ℚ) : ℕ → FractalState → Except Fault FractalState
  | 0, st => .ok st
  | k + 1, st => do
    let st ← octaveStep s persistence lacunarity fns x y st
    octaveLoop s persistence lacunarity fns x y k st

/-- The fractal combinator, `Fractal2` of `noise.go`.  `for range octaves`
runs `octaves` times, and not at all when `octaves` is zero or negative. -/
def Fractal2 (s : Sampler2) (octaves : ℤ) (persistence lacunarity : ℚ)
    (fns : List Shaper) : Sampler2 := fun x y => do
  let st ← octaveLoop s persistence lacunarity fns x y octaves.toNat FractalState.init
  fdiv st.total st.max

/-- The value one octave contributes before weighting: the sample at
frequency `freq`, passed through the shaping chain. -/
def octaveValue (s : Sampler2) (fns : List Shaper) (x y freq : ℚ) : Except Fault ℚ := do
  let v ← s (x * freq) (y * freq)
  applyChain fns v

/-- The composition of the shaping functions in list order, first element
first.  This definition follows the wording of the specification; it is
compared with the loop `applyChain` of the source in
`applyChain_eq_composeChain`. -/
def composeChain (fns : List Shaper) : Shaper := fun v =>
  fns.foldl (fun acc fn => acc >>= fn) (.ok v)

/-! ## Shaping curves -/

/-- Folding around the midpoint. -/
def Turbulence (v : ℚ) : ℚ :=
  |v * 2 - 1|

/-- Ridges peaking at the midpoint. -/
def Ridge (v : ℚ) : ℚ :=
  let v := 1 - |v * 2 - 1|
  v * v

/-- Hermite smooth step between the two edges, swapped first when
`edge0 > edge1`. -/
def SmoothStep (edge0 edge1 : ℚ) : Shaper :=
  let e : ℚ × ℚ := if edge0 > edge1 then (edge1, edge0) else (edge0, edge1)
  fun x =>
    if x < e.1 then .ok 0
    else if x > e.2 then .ok 1
    else do
      let t ← fdiv (x - e.1) (e.2 - e.1)
      pure (t * t * (3 - 2 * t))

/-- The bias curve `v / ((1/b - 2) * (1 - v) + 1)`. -/
def Bias (b : ℚ) : Shaper := fun v => do
  let r ← fdiv 1 b
  fdiv v ((r - 2) * (1 - v) + 1)

/-- The gain curve, built from two bias curves split at the midpoint. -/
def Gain (g : ℚ) : Shaper := fun v =>
  if v < 1 / 2 then do
    let r ← Bias g (v * 2)
    pure (r / 2)
  else do
    let r ← Bias (1 - g) (v * 2 - 1)
    pure (r / 2 + 1 / 2)

/-! ## IEEE 754 binary64 arithmetic -/

/-- A `float64` value.  `fin neg m e` is `(-1)^neg * m * 2^e` in canonical
form: `m < 2^53`, `-1074 ≤ e ≤ 971`, and `2^52 ≤ m` unless `e = -1074` (zero
and the subnormals).  `inf neg` is the infinity of that sign. -/
inductive F64 where
  | fin (neg : Bool) (m : ℕ) (e : ℤ)
  | inf (neg : Bool)
  | nan
  deriving DecidableEq, Repr

namespace F64

/-- The position of the highest set bit of `n`, computed with `fuel` halvings;
`log2Fuel n n` is the floor of the binary logarithm of `n ≥ 1`. -/
def log2Fuel : ℕ → ℕ → ℕ
  | 0, _ => 0
  | fuel + 1, n => if n < 2 then 0 else log2Fuel fuel (n / 2) + 1

/-- The floor of the binary logarithm of the positive rational `n / d`. -/
def floorLog2 (n d : ℕ) : ℤ :=
  let k : ℤ := (log2Fuel n n : ℤ) - (log2Fuel d d : ℤ)
  if 0 ≤ k then (if d * 2 ^ k.toNat ≤ n then k else k - 1)
  else (if d ≤ n * 2 ^ (-k).toNat then k else k - 1)

/-- Rounding of the rational `(-1)^neg * n / d` (with `d > 0`) to the nearest
`float64`, ties to even: the quantum is `2^e` with `e` the exponent of the
binade of `n / d`, at least `-1074`; a mantissa rounded up to `2^53` moves to
the next binade, and a result of `2^1024` or more is an infinity. -/
def round (neg : Bool) (n d : ℕ) : F64 :=
  if n = 0 then fin neg 0 (-1074) else
  let e : ℤ := max (floorLog2 n d - 52) (-1074)
  let a : ℕ := if e < 0 then n * 2 ^ (-e).toNat else n
  let b : ℕ := if e < 0 then d else d * 2 ^ e.toNat
  let q := a / b
  let r := a % b
  let m := if 2 * r < b then q else if b < 2 * r then q + 1 else if q % 2 = 0 then q else q + 1
  let e2 : ℤ := if m = 2 ^ 53 then e + 1 else e
  let m2 : ℕ := if m = 2 ^ 53 then 2 ^ 52 else m
  if 971 < e2 then inf neg else fin neg m2 e2

/-- The integer `(-1)^neg * m`. -/
def signed (neg : Bool) (m : ℕ) : ℤ := if neg then -(m : ℤ) else (m : ℤ)

/-- Rounding of the dyadic number `M * 2^e`. -/
def roundInt (M : ℤ) (e : ℤ) : F64 :=
  if e < 0 then round (decide (M < 0)) M.natAbs (2 ^ (-e).toNat)
  else round (decide (M < 0)) (M.natAbs * 2 ^ e.toNat) 1

/-- The `float64` nearest to the constant `n / d`. -/
def lit (n d : ℕ) : F64 := round false n d

/-- Unary minus. -/
def neg : F64 → F64
  | fin s m e => fin (!s) m e
  | inf s => inf (!s)
  | nan => nan

/-- Addition: the exact sum, rounded; an exact zero sum is `-0` only when
both operands are negative. -/
def add : F64 → F64 → F64
  | nan, _ => nan
  | _, nan => nan
  | inf s, inf t => if s = t then inf s else nan
  | inf s, fin _ _ _ => inf s
  | fin _ _ _, inf t => inf t
  | fin s1 m1 e1, fin s2 m2 e2 =>
    let e0 := min e1 e2
    let M := signed s1 m1 * 2 ^ (e1 - e0).toNat + signed s2 m2 * 2 ^ (e2 - e0).toNat
    if M = 0 then fin (s1 && s2) 0 (-1074) else roundInt M e0

/-- Subtraction. -/
def sub (x y : F64) : F64 := add x (neg y)

/-- Multiplication: the exact product, rounded; `inf * 0` is NaN. -/
def mul : F64 → F64 → F64
  | nan, _ => nan
  | _, nan => nan
  | inf s, inf t => inf (xor s t)
  | inf s, fin t m _ => if m = 0 then nan else inf (xor s t)
  | fin s m _, inf t => if m = 0 then nan else inf (xor s t)
  | fin s1 m1 e1, fin s2 m2 e2 =>
    if e1 + e2 < 0 then round (xor s1 s2) (m1 * m2) (2 ^ (-(e1 + e2)).toNat)
    else round (xor s1 s2) (m1 * m2 * 2 ^ (e1 + e2).toNat) 1

/-- Division: the exact quotient, rounded; `0 / 0` and `inf / inf` are NaN,
and a non-zero number divided by zero is an infinity. -/
def div : F64 → F64 → F64
  | nan, _ => nan
  | _, nan => nan
  | inf _, inf _ => nan
  | inf s, fin t _ _ => inf (xor s t)
  | fin s _ _, inf t => fin (xor s t) 0 (-1074)
  | fin s1 m1 e1, fin s2 m2 e2 =>
    if m2 = 0 then (if m1 = 0 then nan else inf (xor s1 s2))
    else if e1 - e2 < 0 then round (xor s1 s2) m1 (m2 * 2 ^ (-(e1 - e2)).toNat)
    else round (xor s1 s2) (m1 * 2 ^ (e1 - e2).toNat) m2

/-- The comparison `x < y`; false when an operand is NaN. -/
def lt : F64 → F64 → Bool
  | nan, _ => false
  | _, nan => false
  | inf s, inf t => s && !t
  | inf s, fin _ _ _ => s
  | fin _ _ _, inf t => !t
  | fin s1 m1 e1, fin s2 m2 e2 =>
    let e0 := min e1 e2
    decide (signed s1 m1 * 2 ^ (e1 - e0).toNat < signed s2 m2 * 2 ^ (e2 - e0).toNat)

/-- The comparison `x ≤ y`; false when an operand is NaN. -/
def le : F64 → F64 → Bool
  | nan, _ => false
  | _, nan => false
  | inf s, inf t => s || !t
  | inf s, fin _ _ _ => s
  | fin _ _ _, inf t => !t
  | fin s1 m1 e1, fin s2 m2 e2 =>
    let e0 := min e1 e2
    decide (signed s1 m1 * 2 ^ (e1 - e0).toNat ≤ signed s2 m2 * 2 ^ (e2 - e0).toNat)

end F64

/-! ## Shaping curves and fractal combinator over binary64 -/

/-- The function `Bias` of `noise.go` in binary64 arithmetic:
`v / ((1/b-2)*(1-v) + 1)`. -/
def BiasF (b : F64) : F64 → F64 := fun v =>
  F64.div v
    (F64.add (F64.mul (F64.sub (F64.div (F64.lit 1 1) b) (F64.lit 2 1)) (F64.sub (F64.lit 1 1) v))
      (F64.lit 1 1))

/-- The function `Gain` of `noise.go` in binary64 arithmetic. -/
def GainF (g : F64) : F64 → F64 := fun v =>
  if F64.lt v (F64.lit 1 2) then
    F64.div (BiasF g (F64.mul v (F64.lit 2 1))) (F64.lit 2 1)
  else
    F64.add
      (F64.div (BiasF (F64.sub (F64.lit 1 1) g) (F64.sub (F64.mul v (F64.lit 2 1)) (F64.lit 1 1)))
        (F64.lit 2 1))
      (F64.lit 1 2)

/-- A sampler in binary64 arithmetic. -/
abbrev Sampler2F := F64 → F64 → F64

/-- The inner loop `for _, fn := range fns { v = fn(v) }` over binary64. -/
def applyChainF : List (F64 → F64) → F64 → F64
  | [], v => v
  | fn :: fns, v => applyChainF fns (fn v)

/-- The local variables of `Fractal2` over binary64. -/
structure FractalStateF where
  total : F64
  freq : F64
  amp : F64
  max : F64
  deriving DecidableEq, Repr

/-- The state before the first octave: `total = 0`, `freq = 1`, `amp = 1`,
`max = 0`. -/
def FractalStateF.init : FractalStateF :=
  { total := F64.lit 0 1, freq := F64.lit 1 1, amp := F64.lit 1 1, max := F64.lit 0 1 }

/-- One iteration of the octave loop of `Fractal2` over binary64. -/
def octaveStepF (s : Sampler2F) (persistence lacunarity : F64) (fns : List (F64 → F64))
    (x y : F64) (st : FractalStateF) : FractalStateF :=
  let v := s (F64.mul x st.freq) (F64.mul y st.freq)
  let v := applyChainF fns v
  let v := F64.mul v st.amp
  { total := F64.add st.total v
    max := F64.add st.max st.amp
    freq := F64.mul st.freq lacunarity
    amp := F64.mul st.amp persistence }

/-- The octave loop run `k` times over binary64. -/
def octaveLoopF (s : Sampler2F) (persistence lacunarity : F64) (fns : List (F64 → F64))
    (x y : F64) : ℕ → FractalStateF → FractalStateF
  | 0, st => st
  | k + 1, st =>
    octaveLoopF s persistence lacunarity fns x y k
      (octaveStepF s persistence lacunarity fns x y st)

/-- The function `Fractal2` of `noise.go` in binary64 arithmetic. -/
def Fractal2F (s : Sampler2F) (octaves : ℤ) (persistence lacunarity : F64)
    (fns : List (F64 → F64)) : Sampler2F := fun x y =>
  let st := octaveLoopF s persistence lacunarity fns x y octaves.toNat FractalStateF.init
  F64.div st.total st.max

/-! ## Gradient selection -/

/-- Masking with `7` leaves a value below `8`. -/
theorem and7_lt (h : ℕ) : h &&& 7 < 8 :=
  Nat.and_lt_two_pow h (by norm_num : 7 < 2 ^ 3)

/-- Whatever gradient the hash selects, `graddot2` returns a value, and its
magnitude is at most `|fracx| + |fracy|`. -/
theorem graddot2_bound (seed gridx gridy : ℕ) (fracx fracy : ℚ) :
    ∃ d : ℚ, graddot2 seed gridx gridy fracx fracy = .ok d ∧ |d| ≤ |fracx| + |fracy| := by
  have hk := and7_lt (Hash3 seed gridx gridy).1
  unfold graddot2
  generalize (Hash3 seed gridx gridy).1 = h at hk ⊢
  dsimp only
  generalize h &&& 7 = k at hk ⊢
  have hx := abs_nonneg fracx
  have hy := abs_nonneg fracy
  interval_cases k
  · exact ⟨_, rfl, abs_add fracx fracy⟩
  · exact ⟨_, rfl, by simpa [sub_eq_add_neg] using abs_add fracx (-fracy)⟩
  · exact ⟨_, rfl, by simpa using abs_add (-fracx) fracy⟩
  · exact ⟨_, rfl, by simpa [sub_eq_add_neg] using abs_add (-fracx) (-fracy)⟩
  · exact ⟨_, rfl, by linarith⟩
  · exact ⟨_, rfl, by rw [abs_neg]; linarith⟩
  · exact ⟨_, rfl, by linarith⟩
  · exact ⟨_, rfl, by rw [abs_neg]; linarith⟩

/-- At a zero offset every gradient gives the dot product `0`. -/
theorem graddot2_zero (seed gridx gridy : ℕ) :
    graddot2 seed gridx gridy 0 0 = .ok 0 := by
  obtain ⟨d, hd, hb⟩ := graddot2_bound seed gridx gridy 0 0
  have : d = 0 := by simpa using hb
  rw [hd, this]

/-! ## Gradient noise: unfolding, range, lattice points -/

/-- Once the four corner dot products are known, `Perlin2` is their
interpolation, halved and shifted by `1/2`. -/
theorem Perlin2_eq (seed : ℕ) (x y d00 d01 d10 d11 : ℚ)
    (h00 : graddot2 seed (toUint32 ⌊x⌋) (toUint32 ⌊y⌋) (x - ⌊x⌋) (y - ⌊y⌋) = .ok d00)
    (h01 : graddot2 seed (toUint32 (⌊x⌋ + 1)) (toUint32 ⌊y⌋) (x - ⌊x⌋ - 1) (y - ⌊y⌋) = .ok d01)
    (h10 : graddot2 seed (toUint32 ⌊x⌋) (toUint32 (⌊y⌋ + 1)) (x - ⌊x⌋) (y - ⌊y⌋ - 1) = .ok d10)
    (h11 : graddot2 seed (toUint32 (⌊x⌋ + 1)) (toUint32 (⌊y⌋ + 1)) (x - ⌊x⌋ - 1) (y - ⌊y⌋ - 1)
      = .ok d11) :
    Perlin2 seed x y
      = .ok (lerp (lerp d00 d01 (fade (x - ⌊x⌋))) (lerp d10 d11 (fade (x - ⌊x⌋)))
          (fade (y - ⌊y⌋)) / 2 + 1 / 2) := by
  unfold Perlin2
  dsimp only
  rw [h00, h01, h10, h11]
  rfl

/-- The fade curve is non-negative on non-negative arguments. -/
theorem fade_nonneg (t : ℚ) (h0 : 0 ≤ t) : 0 ≤ fade t := by
  unfold fade
  have h : 0 < t * (t * 6 - 15) + 10 := by nlinarith [sq_nonneg (4 * t - 5)]
  have h3 : 0 ≤ t * t * t := mul_nonneg (mul_nonneg h0 h0) h0
  exact mul_nonneg h3 h.le

/-- The fade curve is at most `1` on arguments at most `1`. -/
theorem fade_le_one (t : ℚ) (h1 : t ≤ 1) : fade t ≤ 1 := by
  have h : 1 - fade t = fade (1 - t) := by unfold fade; ring
  have := fade_nonneg (1 - t) (by linarith)
  linarith

/-- The blend of `t` and `1 - t` with weight `fade t` never exceeds `1/2`. -/
theorem fade_mid (t : ℚ) (h0 : 0 ≤ t) (h1 : t ≤ 1) : t + fade t * (1 - 2 * t) ≤ 1 / 2 := by
  have h : t + fade t * (1 - 2 * t) - 1 / 2
      = -((2 * t - 1) ^ 2 * (3 * (t * (1 - t)) ^ 2 + t * (1 - t) + 1 / 2)) := by
    unfold fade; ring
  have ht : 0 ≤ t * (1 - t) := mul_nonneg h0 (by linarith)
  have h2 : 0 ≤ (2 * t - 1) ^ 2 * (3 * (t * (1 - t)) ^ 2 + t * (1 - t) + 1 / 2) :=
    mul_nonneg (sq_nonneg _) (by nlinarith [sq_nonneg (t * (1 - t))])
  linarith

/-- Bilinear interpolation of four corner values, each bounded by the
distance of the sample to its corner, stays within `[-1, 1]`. -/
theorem lerp_grid_bound (fx fy u w d00 d01 d10 d11 : ℚ)
    (hu0 : 0 ≤ u) (hu1 : u ≤ 1) (hw0 : 0 ≤ w) (hw1 : w ≤ 1)
    (hgx : fx + u * (1 - 2 * fx) ≤ 1 / 2) (hgy : fy + w * (1 - 2 * fy) ≤ 1 / 2)
    (h00 : |d00| ≤ fx + fy) (h01 : |d01| ≤ (1 - fx) + fy)
    (h10 : |d10| ≤ fx + (1 - fy)) (h11 : |d11| ≤ (1 - fx) + (1 - fy)) :
    |lerp (lerp d00 d01 u) (lerp d10 d11 u) w| ≤ 1 := by
  have c00 : 0 ≤ (1 - w) * (1 - u) := mul_nonneg (by linarith) (by linarith)
  have c01 : 0 ≤ (1 - w) * u := mul_nonneg (by linarith) hu0
  have c10 : 0 ≤ w * (1 - u) := mul_nonneg hw0 (by linarith)
  have c11 : 0 ≤ w * u := mul_nonneg hw0 hu0
  rw [abs_le] at h00 h01 h10 h11 ⊢
  have a00 := mul_le_mul_of_nonneg_left h00.1 c00
  have b00 := mul_le_mul_of_nonneg_left h00.2 c00
  have a01 := mul_le_mul_of_nonneg_left h01.1 c01
  have b01 := mul_le_mul_of_nonneg_left h01.2 c01
  have a10 := mul_le_mul_of_nonneg_left h10.1 c10
  have b10 := mul_le_mul_of_nonneg_left h10.2 c10
  have a11 := mul_le_mul_of_nonneg_left h11.1 c11
  have b11 := mul_le_mul_of_nonneg_left h11.2 c11
  have hL : lerp (lerp d00 d01 u) (lerp d10 d11 u) w
      = (1 - w) * (1 - u) * d00 + (1 - w) * u * d01 + w * (1 - u) * d10 + w * u * d11 := by
    unfold lerp; ring
  have hB : (1 - w) * (1 - u) * (fx + fy) + (1 - w) * u * ((1 - fx) + fy)
      + w * (1 - u) * (fx + (1 - fy)) + w * u * ((1 - fx) + (1 - fy))
      = (fx + u * (1 - 2 * fx)) + (fy + w * (1 - 2 * fy)) := by ring
  rw [hL]
  constructor <;> linarith

/-- C1: for every seed and every coordinate `(x, y)`, `Perlin2 seed` returns
a value, and that value lies in the closed interval `[0, 1]`, whatever
gradients the hash selects at the four cell corners. -/
theorem Perlin2_range (seed : ℕ) (x y : ℚ) :
    ∃ v : ℚ, Perlin2 seed x y = .ok v ∧ 0 ≤ v ∧ v ≤ 1 := by
  have hx0 : 0 ≤ x - ⌊x⌋ := by linarith [Int.floor_le x]
  have hx1 : x - ⌊x⌋ ≤ 1 := by linarith [Int.lt_floor_add_one x]
  have hy0 : 0 ≤ y - ⌊y⌋ := by linarith [Int.floor_le y]
  have hy1 : y - ⌊y⌋ ≤ 1 := by linarith [Int.lt_floor_add_one y]
  obtain ⟨d00, e00, h00⟩ :=
    graddot2_bound seed (toUint32 ⌊x⌋) (toUint32 ⌊y⌋) (x - ⌊x⌋) (y - ⌊y⌋)
  obtain ⟨d01, e01, h01⟩ :=
    graddot2_bound seed (toUint32 (⌊x⌋ + 1)) (toUint32 ⌊y⌋) (x - ⌊x⌋ - 1) (y - ⌊y⌋)
  obtain ⟨d10, e10, h10⟩ :=
    graddot2_bound seed (toUint32 ⌊x⌋) (toUint32 (⌊y⌋ + 1)) (x - ⌊x⌋) (y - ⌊y⌋ - 1)
  obtain ⟨d11, e11, h11⟩ :=
    graddot2_bound seed (toUint32 (⌊x⌋ + 1)) (toUint32 (⌊y⌋ + 1)) (x - ⌊x⌋ - 1) (y - ⌊y⌋ - 1)
  rw [abs_of_nonneg hx0, abs_of_nonneg hy0] at h00
  rw [abs_of_nonpos (by linarith : x - ⌊x⌋ - 1 ≤ 0), abs_of_nonneg hy0] at h01
  rw [abs_of_nonneg hx0, abs_of_nonpos (by linarith : y - ⌊y⌋ - 1 ≤ 0)] at h10
  rw [abs_of_nonpos (by linarith : x - ⌊x⌋ - 1 ≤ 0),
    abs_of_nonpos (by linarith : y - ⌊y⌋ - 1 ≤ 0)] at h11
  have hb := lerp_grid_bound (x - ⌊x⌋) (y - ⌊y⌋) (fade (x - ⌊x⌋)) (fade (y - ⌊y⌋))
    d00 d01 d10 d11 (fade_nonneg _ hx0) (fade_le_one _ hx1) (fade_nonneg _ hy0)
    (fade_le_one _ hy1) (fade_mid _ hx0 hx1) (fade_mid _ hy0 hy1) h00
    (by linarith) (by linarith) (by linarith)
  rw [abs_le] at hb
  exact ⟨_, Perlin2_eq seed x y d00 d01 d10 d11 e00 e01 e10 e11,
    by linarith [hb.1], by linarith [hb.2]⟩

/-- C2: for every seed and every pair of integers `ix`, `iy`, the gradient
noise sampler `Perlin2 seed` returns exactly `1/2` at `(ix, iy)`. -/
theorem Perlin2_lattice (seed : ℕ) (ix iy : ℤ) :
    Perlin2 seed (ix : ℚ) (iy : ℚ) = .ok (1 / 2) := by
  obtain ⟨d00, e00, h00⟩ := graddot2_bound seed (toUint32 ⌊(ix : ℚ)⌋) (toUint32 ⌊(iy : ℚ)⌋)
    ((ix : ℚ) - ⌊(ix : ℚ)⌋) ((iy : ℚ) - ⌊(iy : ℚ)⌋)
  obtain ⟨d01, e01, -⟩ := graddot2_bound seed (toUint32 (⌊(ix : ℚ)⌋ + 1))
    (toUint32 ⌊(iy : ℚ)⌋) ((ix : ℚ) - ⌊(ix : ℚ)⌋ - 1) ((iy : ℚ) - ⌊(iy : ℚ)⌋)
  obtain ⟨d10, e10, -⟩ := graddot2_bound seed (toUint32 ⌊(ix : ℚ)⌋)
    (toUint32 (⌊(iy : ℚ)⌋ + 1)) ((ix : ℚ) - ⌊(ix : ℚ)⌋) ((iy : ℚ) - ⌊(iy : ℚ)⌋ - 1)
  obtain ⟨d11, e11, -⟩ := graddot2_bound seed (toUint32 (⌊(ix : ℚ)⌋ + 1))
    (toUint32 (⌊(iy : ℚ)⌋ + 1)) ((ix : ℚ) - ⌊(ix : ℚ)⌋ - 1) ((iy : ℚ) - ⌊(iy : ℚ)⌋ - 1)
  rw [Perlin2_eq seed ix iy d00 d01 d10 d11 e00 e01 e10 e11]
  have hd : d00 = 0 := by simpa using h00
  have hx : (ix : ℚ) - ⌊(ix : ℚ)⌋ = 0 := by simp
  have hy : (iy : ℚ) - ⌊(iy : ℚ)⌋ = 0 := by simp
  rw [hx, hy, hd]
  congr 1
  unfold lerp fade
  ring

/-! ## Fractal combinator: closed form of the octave loop -/

/-- The loop over the shaping chain is the composition in list order. -/
theorem applyChain_bind (fns : List Shaper) :
    ∀ a : Except Fault ℚ, (a >>= applyChain fns) = fns.foldl (fun acc fn => acc >>= fn) a := by
  induction fns with
  | nil =>
    intro a
    cases a <;> rfl
  | cons fn fns ih =>
    intro a
    rw [List.foldl_cons, ← ih]
    cases a <;> rfl

/-- The loop `applyChain` of the source computes `composeChain`. -/
theorem applyChain_eq_composeChain (fns : List Shaper) (v : ℚ) :
    applyChain fns v = composeChain fns v := by
  have h := applyChain_bind fns (.ok v)
  exact h

/-- One octave whose shaped value is `v` adds `v * amp` to the total and
`amp` to the weight. -/
theorem octaveStep_ok (s : Sampler2) (p l : ℚ) (fns : List Shaper) (x y : ℚ)
    (st : FractalState) (v : ℚ) (h : octaveValue s fns x y st.freq = .ok v) :
    octaveStep s p l fns x y st
      = .ok { total := st.total + v * st.amp, max := st.max + st.amp,
              freq := st.freq * l, amp := st.amp * p } := by
  unfold octaveValue at h
  unfold octaveStep
  cases hs : s (x * st.freq) (y * st.freq) with
  | error e => rw [hs] at h; cases h
  | ok a =>
    rw [hs] at h
    have h2 : applyChain fns a = .ok v := h
    show (applyChain fns a >>= fun v => _) = _
    rw [h2]
    rfl

/-- The state after `k` octaves whose shaped values are `v 0, …, v (k-1)`. -/
theorem octaveLoop_closed (s : Sampler2) (p l : ℚ) (fns : List Shaper) (x y : ℚ) :
    ∀ (k : ℕ) (st : FractalState) (v : ℕ → ℚ),
      (∀ i < k, octaveValue s fns x y (st.freq * l ^ i) = .ok (v i)) →
      octaveLoop s p l fns x y k st
        = .ok { total := st.total + ∑ i ∈ Finset.range k, v i * (st.amp * p ^ i),
                freq := st.freq * l ^ k, amp := st.amp * p ^ k,
                max := st.max + ∑ i ∈ Finset.range k, st.amp * p ^ i } := by
  intro k
  induction k with
  | zero =>
    intro st v _
    simp [octaveLoop]
  | succ k ih =>
    intro st v h
    have h0 : octaveValue s fns x y st.freq = .ok (v 0) := by
      simpa using h 0 (Nat.succ_pos k)
    have hstep := octaveStep_ok s p l fns x y st (v 0) h0
    have hrest := ih { total := st.total + v 0 * st.amp, max := st.max + st.amp,
                       freq := st.freq * l, amp := st.amp * p } (fun i => v (i + 1))
      (by
        intro i hi
        have := h (i + 1) (Nat.succ_lt_succ hi)
        simpa [pow_succ, mul_comm, mul_left_comm, mul_assoc] using this)
    show (octaveStep s p l fns x y st >>= fun st => octaveLoop s p l fns x y k st) = _
    rw [hstep]
    show octaveLoop s p l fns x y k _ = _
    rw [hrest]
    simp only [Finset.sum_range_succ', pow_zero, mul_one, pow_succ]
    have e1 : ∑ i ∈ Finset.range k, v (i + 1) * (st.amp * p * p ^ i)
        = ∑ i ∈ Finset.range k, v (i + 1) * (st.amp * (p ^ i * p)) :=
      Finset.sum_congr rfl (fun i _ => by ring)
    have e2 : ∑ i ∈ Finset.range k, st.amp * p * p ^ i
        = ∑ i ∈ Finset.range k, st.amp * (p ^ i * p) :=
      Finset.sum_congr rfl (fun i _ => by ring)
    rw [e1, e2]
    congr 2
    · ring
    · ring
    · ring
    · ring

/-- With `n` octaves whose shaped values are `v 0, …, v (n-1)`, `Fractal2`
divides the weighted sum of the values by the sum of the weights. -/
theorem Fractal2_closed (s : Sampler2) (n : ℕ) (p l : ℚ) (fns : List Shaper) (x y : ℚ)
    (v : ℕ → ℚ) (h : ∀ i < n, octaveValue s fns x y (l ^ i) = .ok (v i)) :
    Fractal2 s (n : ℤ) p l fns x y
      = fdiv (∑ i ∈ Finset.range n, p ^ i * v i) (∑ i ∈ Finset.range n, p ^ i) := by
  have hl := octaveLoop_closed s p l fns x y n FractalState.init v
    (by intro i hi; simpa [FractalState.init] using h i hi)
  unfold Fractal2
  rw [Int.toNat_natCast, hl]
  show fdiv _ _ = _
  congr 1
  · simp only [FractalState.init, zero_add, one_mul]
    exact Finset.sum_congr rfl (fun i _ => mul_comm _ _)
  · simp only [FractalState.init, zero_add, one_mul]

/-! ## Fractal combinator: claims -/

/-- C3: with one octave and an empty shaping chain, `Fractal2` returns
exactly what the sampler returns, for every sampler, persistence,
lacunarity and point. -/
theorem Fractal2_single_octave (s : Sampler2) (p l x y : ℚ) :
    Fractal2 s 1 p l [] x y = s x y := by
  cases hs : s x y with
  | error e =>
    have hstep : octaveStep s p l [] x y FractalState.init = .error e := by
      unfold octaveStep
      simp only [FractalState.init, mul_one]
      rw [hs]
      rfl
    unfold Fractal2
    show (octaveLoop s p l [] x y 1 FractalState.init >>= _) = _
    show ((octaveStep s p l [] x y FractalState.init >>= _) >>= _) = _
    rw [hstep]
    rfl
  | ok a =>
    have h := Fractal2_closed s 1 p l [] x y (fun _ => a)
      (by
        intro i hi
        have hi0 : i = 0 := by omega
        subst hi0
        unfold octaveValue
        simp only [pow_zero, mul_one]
        rw [hs]
        rfl)
    have h1 : Fractal2 s 1 p l [] x y = Fractal2 s ((1 : ℕ) : ℤ) p l [] x y := rfl
    rw [h1, h]
    simp [fdiv]

/-- C5: when the octave samples, shaped by the composition of `fns` in list
order, have the values `v 0, …, v (n-1)`, `Fractal2` with `n` octaves returns
the sum of `p^i * v i` divided by the sum of `p^i`: each octave is shaped
before it is weighted by its amplitude. -/
theorem Fractal2_weighted_sum (s : Sampler2) (n : ℕ) (p l : ℚ) (fns : List Shaper)
    (x y : ℚ) (v : ℕ → ℚ)
    (h : ∀ i < n, (s (x * l ^ i) (y * l ^ i) >>= composeChain fns) = .ok (v i)) :
    Fractal2 s (n : ℤ) p l fns x y
      = fdiv (∑ i ∈ Finset.range n, p ^ i * v i) (∑ i ∈ Finset.range n, p ^ i) := by
  apply Fractal2_closed
  intro i hi
  have hc : composeChain fns = applyChain fns :=
    funext (fun a => (applyChain_eq_composeChain fns a).symm)
  rw [← h i hi, hc]
  rfl

/-- Witness for C5: two octaves of the sampler `x + y` shaped by `Ridge`. -/
theorem Fractal2_weighted_sum_witness :
    Fractal2 (fun x y => .ok (x + y)) ((2 : ℕ) : ℤ) (1 / 2) 2 [fun v => .ok (Ridge v)] (1 / 8) 0
      = fdiv (∑ i ∈ Finset.range 2, (1 / 2 : ℚ) ^ i * (fun i => if i = 0 then 1 / 16 else 1 / 4) i)
          (∑ i ∈ Finset.range 2, (1 / 2 : ℚ) ^ i) :=
  Fractal2_weighted_sum (fun x y => .ok (x + y)) 2 (1 / 2) 2 [fun v => .ok (Ridge v)] (1 / 8) 0
    (fun i => if i = 0 then 1 / 16 else 1 / 4)
    (by
      intro i hi
      interval_cases i
      · simp only [composeChain, List.foldl, bind, Except.bind, Ridge]
        norm_num [abs_of_nonpos]
      · simp only [composeChain, List.foldl, bind, Except.bind, Ridge]
        norm_num [abs_of_nonpos])

/-- C6: for every octave count below `1`, the octave loop does not run: the
accumulated total and the accumulated weight are both `0`, and the final
division has divisor `0`. -/
theorem Fractal2_no_octaves (s : Sampler2) (octaves : ℤ) (p l : ℚ) (fns : List Shaper)
    (x y : ℚ) (h : octaves < 1) :
    ∃ st : FractalState,
      octaveLoop s p l fns x y octaves.toNat FractalState.init = .ok st ∧
      st.total = 0 ∧ st.max = 0 ∧
      Fractal2 s octaves p l fns x y = .error .divByZero := by
  have h0 : octaves.toNat = 0 := Int.toNat_eq_zero.mpr (by omega)
  refine ⟨FractalState.init, ?_, rfl, rfl, ?_⟩
  · rw [h0]; rfl
  · unfold Fractal2
    rw [h0]
    rfl

/-- Witness for C6: octave count `-3`. -/
theorem Fractal2_no_octaves_witness :
    ∃ st : FractalState,
      octaveLoop (Perlin2 88) (1 / 2) 2 [] (1 / 3) (1 / 5) (Int.toNat (-3)) FractalState.init
        = .ok st ∧
      st.total = 0 ∧ st.max = 0 ∧
      Fractal2 (Perlin2 88) (-3) (1 / 2) 2 [] (1 / 3) (1 / 5) = .error .divByZero :=
  Fractal2_no_octaves (Perlin2 88) (-3) (1 / 2) 2 [] (1 / 3) (1 / 5) (by norm_num)

/-! ## Fractal combinator: range -/

/-- With non-negative persistence and at least one octave the weights sum to
at least `1`, and the weighted sum of values in `[a, b]` lies between `a` and
`b` times the weight. -/
theorem weighted_sum_bounds (n : ℕ) (hn : 1 ≤ n) (p : ℚ) (hp : 0 ≤ p) (v : ℕ → ℚ) (a b : ℚ)
    (hv : ∀ i < n, a ≤ v i ∧ v i ≤ b) :
    1 ≤ ∑ i ∈ Finset.range n, p ^ i ∧
    a * ∑ i ∈ Finset.range n, p ^ i ≤ ∑ i ∈ Finset.range n, p ^ i * v i ∧
    ∑ i ∈ Finset.range n, p ^ i * v i ≤ b * ∑ i ∈ Finset.range n, p ^ i := by
  refine ⟨?_, ?_, ?_⟩
  · have h0 : (0 : ℕ) ∈ Finset.range n := Finset.mem_range.mpr (by omega)
    have := Finset.single_le_sum (f := fun i => p ^ i) (fun i _ => pow_nonneg hp i) h0
    simpa using this
  · rw [Finset.mul_sum]
    apply Finset.sum_le_sum
    intro i hi
    have := (hv i (Finset.mem_range.mp hi)).1
    have hpi := pow_nonneg hp i
    nlinarith
  · rw [Finset.mul_sum]
    apply Finset.sum_le_sum
    intro i hi
    have := (hv i (Finset.mem_range.mp hi)).2
    have hpi := pow_nonneg hp i
    nlinarith

/-- In the exact model, with at least one octave, non-negative persistence
and shaped octave values in `[a, b]`, the accumulated weight is at least `1`
and `Fractal2` returns a value in `[a, b]`. -/
theorem Fractal2_convex (s : Sampler2) (octaves : ℤ) (p l : ℚ) (fns : List Shaper)
    (x y a b : ℚ) (hn : 1 ≤ octaves) (hp : 0 ≤ p)
    (h : ∀ i : ℕ, i < octaves.toNat →
      ∃ v, octaveValue s fns x y (l ^ i) = .ok v ∧ a ≤ v ∧ v ≤ b) :
    (∃ st : FractalState,
      octaveLoop s p l fns x y octaves.toNat FractalState.init = .ok st ∧ 1 ≤ st.max) ∧
    ∃ r : ℚ, Fractal2 s octaves p l fns x y = .ok r ∧ a ≤ r ∧ r ≤ b := by
  obtain ⟨n, rfl⟩ := Int.eq_ofNat_of_zero_le (by omega : 0 ≤ octaves)
  rw [Int.toNat_natCast] at h ⊢
  have hn1 : 1 ≤ n := by exact_mod_cast hn
  choose! v hv using h
  have hb := weighted_sum_bounds n hn1 p hp v a b (fun i hi => (hv i hi).2)
  obtain ⟨hw, hlo, hhi⟩ := hb
  have hwpos : 0 < ∑ i ∈ Finset.range n, p ^ i := by linarith
  constructor
  · have hl := octaveLoop_closed s p l fns x y n FractalState.init v
      (by intro i hi; simpa [FractalState.init] using (hv i hi).1)
    refine ⟨_, hl, ?_⟩
    simpa [FractalState.init] using hw
  · rw [Fractal2_closed s n p l fns x y v (fun i hi => (hv i hi).1)]
    refine ⟨(∑ i ∈ Finset.range n, p ^ i * v i) / (∑ i ∈ Finset.range n, p ^ i), ?_, ?_, ?_⟩
    · unfold fdiv
      rw [if_neg hwpos.ne.symm]
    · rw [le_div_iff₀ hwpos]; exact hlo
    · rw [div_le_iff₀ hwpos]; exact hhi

/-- C4, evaluated at a failing input: two octaves of a sampler whose values
are always `0` or `1` (here `1` at the first octave and `0` at the second),
persistence `-1/2`, lacunarity `1/2`, at the point `(1, 0)`.  Every octave value
lies in `[0, 1]`, yet the total is `1`, the accumulated weight `max` is
`1 + (-1/2) = 1/2`, and `Fractal2` returns `2`, outside `[0, 1]`: with a
negative amplitude `max` is no longer the largest value the total can take.
All numbers involved are exact in binary64. -/
theorem Fractal2_range_counterexample :
    (1 : ℤ) ≤ 2 ∧
    (∀ x y freq : ℚ, ∃ v : ℚ,
      octaveValue (fun x _ => .ok (if x < 1 then 0 else 1)) [] x y freq = .ok v ∧
        0 ≤ v ∧ v ≤ 1) ∧
    Fractal2 (fun x _ => .ok (if x < 1 then 0 else 1)) 2 (-1 / 2) (1 / 2) [] 1 0 = .ok 2 ∧
    ¬ ∃ r : ℚ,
      Fractal2 (fun x _ => .ok (if x < 1 then 0 else 1)) 2 (-1 / 2) (1 / 2) [] 1 0 = .ok r ∧
        0 ≤ r ∧ r ≤ 1 := by
  have hv : Fractal2 (fun x _ => .ok (if x < 1 then 0 else 1)) 2 (-1 / 2) (1 / 2) [] 1 0
      = .ok 2 := by
    have h := Fractal2_closed (fun x _ => .ok (if x < 1 then 0 else 1)) 2 (-1 / 2) (1 / 2) [] 1 0
      (fun i => if i = 0 then 1 else 0)
      (by
        intro i hi
        interval_cases i
        · simp [octaveValue, applyChain, bind, Except.bind]
        · simp [octaveValue, applyChain, bind, Except.bind]; norm_num)
    have h2 : Fractal2 (fun x _ => .ok (if x < 1 then 0 else 1)) 2 (-1 / 2) (1 / 2) [] 1 0
        = Fractal2 (fun x _ => .ok (if x < 1 then 0 else 1)) ((2 : ℕ) : ℤ) (-1 / 2) (1 / 2) []
            1 0 := rfl
    rw [h2, h]
    norm_num [fdiv, Finset.sum_range_succ]
  refine ⟨by norm_num, ?_, hv, ?_⟩
  · intro x y freq
    by_cases hx : x * freq < 1
    · exact ⟨0, by simp [octaveValue, applyChain, bind, Except.bind, hx], le_refl _, by norm_num⟩
    · exact ⟨1, by simp [octaveValue, applyChain, bind, Except.bind, hx], by norm_num, le_refl _⟩
  · rintro ⟨r, hr, -, hr1⟩
    rw [hv] at hr
    have : (2 : ℚ) = r := by injection hr
    linarith

/-! ## Shaping curves: smooth step -/

/-- With ordered, distinct edges `lo < hi` the smooth step is `0` below
`lo`, `1` above `hi` and the Hermite polynomial of the normalised position in
between. -/
theorem SmoothStep_ordered (lo hi x : ℚ) (h : lo < hi) :
    (x < lo → SmoothStep lo hi x = .ok 0) ∧
    (hi < x → SmoothStep lo hi x = .ok 1) ∧
    (lo ≤ x → x ≤ hi →
      SmoothStep lo hi x
        = .ok ((x - lo) / (hi - lo) * ((x - lo) / (hi - lo)) * (3 - 2 * ((x - lo) / (hi - lo))))) := by
  have hng : ¬ lo > hi := not_lt.mpr h.le
  have hne : hi - lo ≠ 0 := by
    intro h0
    linarith
  unfold SmoothStep
  simp only [if_neg hng]
  refine ⟨?_, ?_, ?_⟩
  · intro hx
    rw [if_pos hx]
  · intro hx
    rw [if_neg (by linarith : ¬ x < lo), if_pos hx]
  · intro h1 h2
    rw [if_neg (not_lt.mpr h1), if_neg (not_lt.mpr h2)]
    unfold fdiv
    rw [if_neg hne]
    rfl

/-- Swapping the edges does not change the smooth step. -/
theorem SmoothStep_swap (a b : ℚ) : SmoothStep a b = SmoothStep b a := by
  unfold SmoothStep
  rcases lt_trichotomy a b with h | h | h
  · rw [if_neg (not_lt.mpr h.le), if_pos h]
  · subst h
    rfl
  · rw [if_pos h, if_neg (not_lt.mpr h.le)]

/-- C7: for edges with `lo = min edge0 edge1 < hi = max edge0 edge1`, the
smooth step is `0` for `x < lo`, `1` for `x > hi`, and `t*t*(3-2t)` with
`t = (x-lo)/(hi-lo)` for `lo ≤ x ≤ hi`; in particular `SmoothStep 0 1` is `0`
for `x ≤ 0`, `1` for `x ≥ 1` and `x*x*(3-2x)` for `0 < x < 1`. -/
theorem SmoothStep_spec (edge0 edge1 x : ℚ) (h : min edge0 edge1 < max edge0 edge1) :
    ((x < min edge0 edge1 → SmoothStep edge0 edge1 x = .ok 0) ∧
     (max edge0 edge1 < x → SmoothStep edge0 edge1 x = .ok 1) ∧
     (min edge0 edge1 ≤ x → x ≤ max edge0 edge1 →
        SmoothStep edge0 edge1 x
          = .ok ((x - min edge0 edge1) / (max edge0 edge1 - min edge0 edge1)
              * ((x - min edge0 edge1) / (max edge0 edge1 - min edge0 edge1))
              * (3 - 2 * ((x - min edge0 edge1) / (max edge0 edge1 - min edge0 edge1)))))) ∧
    ((x ≤ 0 → SmoothStep 0 1 x = .ok 0) ∧
     (1 ≤ x → SmoothStep 0 1 x = .ok 1) ∧
     (0 < x → x < 1 → SmoothStep 0 1 x = .ok (x * x * (3 - 2 * x)))) := by
  constructor
  · rcases le_total edge0 edge1 with hle | hle
    · rw [min_eq_left hle, max_eq_right hle] at h ⊢
      exact SmoothStep_ordered edge0 edge1 x h
    · rw [min_eq_right hle, max_eq_left hle] at h ⊢
      rw [SmoothStep_swap edge0 edge1]
      exact SmoothStep_ordered edge1 edge0 x h
  · obtain ⟨h0, h1, hm⟩ := SmoothStep_ordered 0 1 x (by norm_num)
    refine ⟨?_, ?_, ?_⟩
    · intro hx
      rcases lt_or_eq_of_le hx with hlt | heq
      · exact h0 hlt
      · rw [hm (by linarith) (by linarith), heq]
        norm_num
    · intro hx
      rcases lt_or_eq_of_le hx with hlt | heq
      · exact h1 hlt
      · rw [hm (by linarith) (by linarith), ← heq]
        norm_num
    · intro hx0 hx1
      rw [hm hx0.le hx1.le]
      norm_num

/-- Witness for C7: the edges `1` and `0`, given in descending order, at a
point below, a point above and a point between them. -/
theorem SmoothStep_spec_witness :
    SmoothStep 1 0 (-1) = .ok 0 ∧
    SmoothStep 1 0 2 = .ok 1 ∧
    SmoothStep 1 0 (1 / 3)
      = .ok ((1 / 3 - min (1 : ℚ) 0) / (max (1 : ℚ) 0 - min (1 : ℚ) 0)
          * ((1 / 3 - min (1 : ℚ) 0) / (max (1 : ℚ) 0 - min (1 : ℚ) 0))
          * (3 - 2 * ((1 / 3 - min (1 : ℚ) 0) / (max (1 : ℚ) 0 - min (1 : ℚ) 0)))) ∧
    SmoothStep 0 1 (1 / 3) = .ok (1 / 3 * (1 / 3) * (3 - 2 * (1 / 3))) :=
  ⟨(SmoothStep_spec 1 0 (-1) (by norm_num)).1.1 (by norm_num),
   (SmoothStep_spec 1 0 2 (by norm_num)).1.2.1 (by norm_num),
   (SmoothStep_spec 1 0 (1 / 3) (by norm_num)).1.2.2 (by norm_num) (by norm_num),
   (SmoothStep_spec 1 0 (1 / 3) (by norm_num)).2.2.2 (by norm_num) (by norm_num)⟩

/-- C8: for every `a`, `b` and `x`, `SmoothStep a b x = SmoothStep b a x`:
the edges are ordered before use, so `SmoothStep 1 0` behaves identically
to `SmoothStep 0 1`. -/
theorem SmoothStep_comm (a b x : ℚ) :
    SmoothStep a b x = SmoothStep b a x ∧ SmoothStep 1 0 x = SmoothStep 0 1 x :=
  ⟨congrFun (SmoothStep_swap a b) x, congrFun (SmoothStep_swap 1 0) x⟩

/-! ## Shaping curves: bias -/

/-- With a non-zero parameter and a non-zero divisor, `Bias` is the quotient
`v / ((1/b - 2) * (1 - v) + 1)`. -/
theorem Bias_eq (b v : ℚ) (hb : b ≠ 0) (hd : (1 / b - 2) * (1 - v) + 1 ≠ 0) :
    Bias b v = .ok (v / ((1 / b - 2) * (1 - v) + 1)) := by
  unfold Bias fdiv
  rw [if_neg hb]
  show (if (1 / b - 2) * (1 - v) + 1 = 0 then _ else _) = _
  rw [if_neg hd]

/-- C9: `Bias (1/2)` is the identity: it returns `v` for every `v`, in
particular for every `v` in `[0, 1]`. -/
theorem Bias_half (v : ℚ) : Bias (1 / 2) v = .ok v := by
  have hd : (1 / (1 / 2 : ℚ) - 2) * (1 - v) + 1 = 1 := by norm_num
  rw [Bias_eq (1 / 2) v (by norm_num) (by rw [hd]; norm_num), hd, div_one]

/-- C10 (as amended): for `v` in `[0, 1]`, `Bias b` returns a value between
`0` and `v` when `2^-1022 ≤ b < 1/2`, and a value between `v` and `1` when
`1/2 < b < 1`.  The lower bound on `b` (the smallest normal binary64 number)
keeps `1/b` finite in binary64. -/
theorem Bias_push (b v : ℚ) (hv0 : 0 ≤ v) (hv1 : v ≤ 1) :
    (1 / 2 ^ 1022 ≤ b → b < 1 / 2 → ∃ r : ℚ, Bias b v = .ok r ∧ 0 ≤ r ∧ r ≤ v) ∧
    (1 / 2 < b → b < 1 → ∃ r : ℚ, Bias b v = .ok r ∧ v ≤ r ∧ r ≤ 1) := by
  constructor
  · intro hbl hb1
    have hb0 : 0 < b := lt_of_lt_of_le (by positivity) hbl
    have hc : 0 < 1 / b - 2 := by
      have : 2 < 1 / b := by rw [lt_div_iff₀ hb0]; linarith
      linarith
    have hD : 1 ≤ (1 / b - 2) * (1 - v) + 1 := by nlinarith
    have hDpos : 0 < (1 / b - 2) * (1 - v) + 1 := by linarith
    refine ⟨_, Bias_eq b v hb0.ne.symm hDpos.ne.symm, div_nonneg hv0 hDpos.le, ?_⟩
    rw [div_le_iff₀ hDpos]
    nlinarith
  · intro hb0 hb1
    have hbpos : 0 < b := by linarith
    have hc1 : 1 / b - 2 < 0 := by
      have : 1 / b < 2 := by rw [div_lt_iff₀ hbpos]; linarith
      linarith
    have hc2 : -1 < 1 / b - 2 := by
      have : 1 < 1 / b := by rw [lt_div_iff₀ hbpos]; linarith
      linarith
    have hDle : (1 / b - 2) * (1 - v) + 1 ≤ 1 := by nlinarith
    have hDge : v ≤ (1 / b - 2) * (1 - v) + 1 := by nlinarith
    have hDpos : 0 < (1 / b - 2) * (1 - v) + 1 := by
      rcases lt_or_eq_of_le hv1 with h | h
      · nlinarith
      · rw [h]; norm_num
    refine ⟨_, Bias_eq b v hbpos.ne.symm hDpos.ne.symm, ?_, ?_⟩
    · rw [le_div_iff₀ hDpos]
      nlinarith
    · rw [div_le_iff₀ hDpos]
      linarith

/-- Witness for C10: `v = 1/3` with `b = 1/10` and with `b = 9/10`. -/
theorem Bias_push_witness :
    (∃ r : ℚ, Bias (1 / 10) (1 / 3) = .ok r ∧ 0 ≤ r ∧ r ≤ 1 / 3) ∧
    (∃ r : ℚ, Bias (9 / 10) (1 / 3) = .ok r ∧ 1 / 3 ≤ r ∧ r ≤ 1) :=
  ⟨(Bias_push (1 / 10) (1 / 3) (by norm_num) (by norm_num)).1 (by norm_num) (by norm_num),
   (Bias_push (9 / 10) (1 / 3) (by norm_num) (by norm_num)).2 (by norm_num) (by norm_num)⟩

/-! ## Shaping curves: bias outside its domain -/

/-- C11 (as amended): `Bias 0 v` divides by zero for every `v` (in `1/b`);
`Bias 1 v` divides by zero at `v = 0`, where the divisor
`(1/1 - 2) * (1 - v) + 1` is `0`, but not for every `v` in `[0, 1]`: at
`v = 1/2` both divisors are non-zero and the result is `1`. -/
theorem Bias_degenerate (v : ℚ) :
    Bias 0 v = .error .divByZero ∧
    Bias 1 0 = .error .divByZero ∧
    Bias 1 (1 / 2) = .ok 1 := by
  refine ⟨rfl, ?_, ?_⟩
  · unfold Bias fdiv
    rw [if_neg one_ne_zero]
    show (if (1 / 1 - 2) * (1 - 0) + 1 = (0 : ℚ) then _ else _) = _
    rw [if_pos (by norm_num)]
  · rw [Bias_eq 1 (1 / 2) one_ne_zero (by norm_num)]
    norm_num

/-- C11 fails as stated: for `b = 1` and `v = 1/2`, which lies in `[0, 1]`,
both divisors are non-zero (`b = 1` and `(1/1 - 2) * (1 - 1/2) + 1 = 1/2`) and
`Bias` returns `1`; no division by zero takes place. -/
theorem Bias_one_counterexample :
    (0 : ℚ) ≤ 1 / 2 ∧ (1 / 2 : ℚ) ≤ 1 ∧ (1 : ℚ) ≠ 0 ∧
    (1 / (1 : ℚ) - 2) * (1 - 1 / 2) + 1 ≠ 0 ∧
    Bias 1 (1 / 2) = .ok 1 ∧ Bias 1 (1 / 2) ≠ .error .divByZero := by
  have h : Bias 1 (1 / 2) = .ok 1 := by
    rw [Bias_eq 1 (1 / 2) one_ne_zero (by norm_num)]
    norm_num
  refine ⟨by norm_num, by norm_num, one_ne_zero, by norm_num, h, ?_⟩
  rw [h]
  intro hc
  cases hc

/-! ## Shaping curves: gain -/

/-- For `b` strictly between `0` and `1` and `w` in `[0, 1]` the divisor of
`Bias b w` is positive. -/
theorem Bias_divisor_pos (b w : ℚ) (hb0 : 0 < b) (hb1 : b < 1) (hw0 : 0 ≤ w) (hw1 : w ≤ 1) :
    0 < (1 / b - 2) * (1 - w) + 1 := by
  have hc : -1 < 1 / b - 2 := by
    have : 1 < 1 / b := by rw [lt_div_iff₀ hb0]; linarith
    linarith
  rcases lt_or_eq_of_le hw1 with h | h
  · nlinarith
  · rw [h]; norm_num

/-- On the lower branch `Gain` is half the bias of the doubled input. -/
theorem Gain_lower (g v r : ℚ) (hv : v < 1 / 2) (hr : Bias g (v * 2) = .ok r) :
    Gain g v = .ok (r / 2) := by
  unfold Gain
  rw [if_pos hv, hr]
  rfl

/-- On the upper branch `Gain` is half the complementary bias, shifted by
`1/2`. -/
theorem Gain_upper (g v r : ℚ) (hv : ¬ v < 1 / 2) (hr : Bias (1 - g) (v * 2 - 1) = .ok r) :
    Gain g v = .ok (r / 2 + 1 / 2) := by
  unfold Gain
  rw [if_neg hv, hr]
  rfl

/-- The bias curve with parameter `1/2` returns its input. -/
theorem Bias_id (w : ℚ) : Bias (1 / 2) w = .ok w := by
  have hd : (1 / (1 / 2 : ℚ) - 2) * (1 - w) + 1 = 1 := by norm_num
  rw [Bias_eq (1 / 2) w (by norm_num) (by rw [hd]; norm_num), hd, div_one]

/-- C12: `Gain (1/2)` is the identity, `Gain (1/2) v = v`, on the branch
`v < 1/2` and on the branch `v ≥ 1/2`; in particular for every `v` in
`[0, 1]`. -/
theorem Gain_half (v : ℚ) : Gain (1 / 2) v = .ok v := by
  by_cases hv : v < 1 / 2
  · rw [Gain_lower (1 / 2) v (v * 2) hv (Bias_id _)]
    congr 1
    ring
  · have h1 : (1 - 1 / 2 : ℚ) = 1 / 2 := by norm_num
    rw [Gain_upper (1 / 2) v (v * 2 - 1) hv (by rw [h1]; exact Bias_id _)]
    congr 1
    ring

/-- In the exact model, for `g` strictly between `0` and `1`, the
lower-branch expression `Bias g (2v) / 2` and the upper-branch expression
`Bias (1-g) (2v-1) / 2 + 1/2` both evaluate to `1/2` at `v = 1/2`, and
`Gain g (1/2)` returns `1/2`. -/
theorem Gain_branches_mid (g : ℚ) (hg0 : 0 < g) (hg1 : g < 1) :
    (Bias g (1 / 2 * 2) >>= fun r => pure (r / 2)) = .ok (1 / 2) ∧
    (Bias (1 - g) (1 / 2 * 2 - 1) >>= fun r => pure (r / 2 + 1 / 2)) = .ok (1 / 2) ∧
    Gain g (1 / 2) = .ok (1 / 2) := by
  have hlow : Bias g (1 / 2 * 2) = .ok 1 := by
    have h1 : (1 / 2 * 2 : ℚ) = 1 := by norm_num
    have hd : (1 / g - 2) * (1 - 1) + 1 = 1 := by ring
    rw [h1, Bias_eq g 1 hg0.ne.symm (by rw [hd]; norm_num), hd, div_one]
  have hup : Bias (1 - g) (1 / 2 * 2 - 1) = .ok 0 := by
    have h1 : (1 / 2 * 2 - 1 : ℚ) = 0 := by norm_num
    have hpos := Bias_divisor_pos (1 - g) 0 (by linarith) (by linarith) (le_refl _) (by norm_num)
    have hne : (1 : ℚ) - g ≠ 0 := by
      intro h
      linarith
    rw [h1, Bias_eq (1 - g) 0 hne hpos.ne.symm, zero_div]
  refine ⟨?_, ?_, ?_⟩
  · rw [hlow]; rfl
  · rw [hup]
    show Except.ok ((0 : ℚ) / 2 + 1 / 2) = _
    congr 1
    norm_num
  · rw [Gain_upper g (1 / 2) 0 (lt_irrefl _) hup]
    congr 1
    norm_num

/-- C13 (as amended): for `2^-53 ≤ g < 1`, the lower-branch expression
`Bias g (2v) / 2` and the upper-branch expression
`Bias (1-g) (2v-1) / 2 + 1/2` both evaluate to `1/2` at `v = 1/2`, which is the
value `Gain g (1/2)` returns.  The lower bound on `g` keeps `1 - g` below `1`
in binary64. -/
theorem Gain_midpoint (g : ℚ) (hg0 : 1 / 2 ^ 53 ≤ g) (hg1 : g < 1) :
    (Bias g (1 / 2 * 2) >>= fun r => pure (r / 2)) = .ok (1 / 2) ∧
    (Bias (1 - g) (1 / 2 * 2 - 1) >>= fun r => pure (r / 2 + 1 / 2)) = .ok (1 / 2) ∧
    Gain g (1 / 2) = .ok (1 / 2) :=
  Gain_branches_mid g (lt_of_lt_of_le (by positivity) hg0) hg1

/-- Witness for C13 (as amended): `g = 1/4`. -/
theorem Gain_midpoint_witness :
    (Bias (1 / 4) (1 / 2 * 2) >>= fun r => pure (r / 2)) = .ok (1 / 2) ∧
    (Bias (1 - 1 / 4) (1 / 2 * 2 - 1) >>= fun r => pure (r / 2 + 1 / 2)) = .ok (1 / 2) ∧
    Gain (1 / 4) (1 / 2) = .ok (1 / 2) :=
  Gain_midpoint (1 / 4) (by norm_num) (by norm_num)

/-- For `b` strictly between `0` and `1` and `w` in `[0, 1]`, `Bias b w` is
the quotient `w / ((1/b - 2) * (1 - w) + 1)`. -/
theorem Bias_val (b w : ℚ) (hb0 : 0 < b) (hb1 : b < 1) (hw0 : 0 ≤ w) (hw1 : w ≤ 1) :
    Bias b w = .ok (w / ((1 / b - 2) * (1 - w) + 1)) :=
  Bias_eq b w hb0.ne.symm (Bias_divisor_pos b w hb0 hb1 hw0 hw1).ne.symm

/-- For `0 < b < 1/2` the bias quotient of `w` in `[0, 1]` lies in `[0, w]`. -/
theorem Bias_quot_low (b w : ℚ) (hb0 : 0 < b) (hb1 : b < 1 / 2) (hw0 : 0 ≤ w) (hw1 : w ≤ 1) :
    0 ≤ w / ((1 / b - 2) * (1 - w) + 1) ∧ w / ((1 / b - 2) * (1 - w) + 1) ≤ w := by
  have hc : 0 < 1 / b - 2 := by
    have : 2 < 1 / b := by rw [lt_div_iff₀ hb0]; linarith
    linarith
  have hD : 1 ≤ (1 / b - 2) * (1 - w) + 1 := by nlinarith
  have hDpos : 0 < (1 / b - 2) * (1 - w) + 1 := by linarith
  refine ⟨div_nonneg hw0 hDpos.le, ?_⟩
  rw [div_le_iff₀ hDpos]
  nlinarith

/-- For `1/2 < b < 1` the bias quotient of `w` in `[0, 1]` lies in `[w, 1]`. -/
theorem Bias_quot_high (b w : ℚ) (hb0 : 1 / 2 < b) (hb1 : b < 1) (hw0 : 0 ≤ w) (hw1 : w ≤ 1) :
    w ≤ w / ((1 / b - 2) * (1 - w) + 1) ∧ w / ((1 / b - 2) * (1 - w) + 1) ≤ 1 := by
  have hbpos : 0 < b := by linarith
  have hc1 : 1 / b - 2 < 0 := by
    have : 1 / b < 2 := by rw [div_lt_iff₀ hbpos]; linarith
    linarith
  have hc2 : -1 < 1 / b - 2 := by
    have : 1 < 1 / b := by rw [lt_div_iff₀ hbpos]; linarith
    linarith
  have hDle : (1 / b - 2) * (1 - w) + 1 ≤ 1 := by nlinarith
  have hDge : w ≤ (1 / b - 2) * (1 - w) + 1 := by nlinarith
  have hDpos := Bias_divisor_pos b w hbpos hb1 hw0 hw1
  constructor
  · rw [le_div_iff₀ hDpos]
    nlinarith
  · rw [div_le_iff₀ hDpos]
    linarith

/-- C14 (as amended): for `v` in `[0, 1]`: with `2^-53 ≤ g < 1/2`, `Gain g`
increases contrast (the result is at most `v` below the midpoint and at least
`v` from the midpoint on); with `1/2 < g < 1` it decreases contrast (the
result lies between `v` and `1/2`).  The lower bound on `g` keeps `1 - g`
below `1` in binary64. -/
theorem Gain_contrast (g v : ℚ) (hv0 : 0 ≤ v) (hv1 : v ≤ 1) :
    (1 / 2 ^ 53 ≤ g → g < 1 / 2 →
      ∃ r : ℚ, Gain g v = .ok r ∧ (v < 1 / 2 → r ≤ v) ∧ (1 / 2 ≤ v → v ≤ r)) ∧
    (1 / 2 < g → g < 1 →
      ∃ r : ℚ, Gain g v = .ok r ∧
        (v < 1 / 2 → v ≤ r ∧ r ≤ 1 / 2) ∧ (1 / 2 ≤ v → 1 / 2 ≤ r ∧ r ≤ v)) := by
  constructor
  · intro hgl hg1
    have hg0 : 0 < g := lt_of_lt_of_le (by positivity) hgl
    by_cases hv : v < 1 / 2
    · have hw0 : 0 ≤ v * 2 := by linarith
      have hw1 : v * 2 ≤ 1 := by linarith
      have hb := Bias_quot_low g (v * 2) hg0 hg1 hw0 hw1
      refine ⟨_, Gain_lower g v _ hv (Bias_val g (v * 2) hg0 (by linarith) hw0 hw1), ?_, ?_⟩
      · intro _
        linarith [hb.2]
      · intro h
        linarith
    · have hv2 : 1 / 2 ≤ v := not_lt.mp hv
      have hw0 : 0 ≤ v * 2 - 1 := by linarith
      have hw1 : v * 2 - 1 ≤ 1 := by linarith
      have hb := Bias_quot_high (1 - g) (v * 2 - 1) (by linarith) (by linarith) hw0 hw1
      refine ⟨_, Gain_upper g v _ hv
        (Bias_val (1 - g) (v * 2 - 1) (by linarith) (by linarith) hw0 hw1), ?_, ?_⟩
      · intro h
        linarith
      · intro _
        linarith [hb.1]
  · intro hg0 hg1
    by_cases hv : v < 1 / 2
    · have hw0 : 0 ≤ v * 2 := by linarith
      have hw1 : v * 2 ≤ 1 := by linarith
      have hb := Bias_quot_high g (v * 2) hg0 hg1 hw0 hw1
      refine ⟨_, Gain_lower g v _ hv (Bias_val g (v * 2) (by linarith) hg1 hw0 hw1), ?_, ?_⟩
      · intro _
        exact ⟨by linarith [hb.1], by linarith [hb.2]⟩
      · intro h
        linarith
    · have hv2 : 1 / 2 ≤ v := not_lt.mp hv
      have hw0 : 0 ≤ v * 2 - 1 := by linarith
      have hw1 : v * 2 - 1 ≤ 1 := by linarith
      have hb := Bias_quot_low (1 - g) (v * 2 - 1) (by linarith) (by linarith) hw0 hw1
      refine ⟨_, Gain_upper g v _ hv
        (Bias_val (1 - g) (v * 2 - 1) (by linarith) (by linarith) hw0 hw1), ?_, ?_⟩
      · intro h
        linarith
      · intro _
        exact ⟨by linarith [hb.1], by linarith [hb.2]⟩

/-- Witness for C14 (as amended): `g = 1/4` and `g = 3/4`, each at `v = 1/4` and at
`v = 3/4`. -/
theorem Gain_contrast_witness :
    (∃ r : ℚ, Gain (1 / 4) (1 / 4) = .ok r ∧ r ≤ 1 / 4) ∧
    (∃ r : ℚ, Gain (1 / 4) (3 / 4) = .ok r ∧ 3 / 4 ≤ r) ∧
    (∃ r : ℚ, Gain (3 / 4) (1 / 4) = .ok r ∧ 1 / 4 ≤ r ∧ r ≤ 1 / 2) ∧
    (∃ r : ℚ, Gain (3 / 4) (3 / 4) = .ok r ∧ 1 / 2 ≤ r ∧ r ≤ 3 / 4) := by
  obtain ⟨r1, e1, a1, -⟩ :=
    (Gain_contrast (1 / 4) (1 / 4) (by norm_num) (by norm_num)).1 (by norm_num) (by norm_num)
  obtain ⟨r2, e2, -, a2⟩ :=
    (Gain_contrast (1 / 4) (3 / 4) (by norm_num) (by norm_num)).1 (by norm_num) (by norm_num)
  obtain ⟨r3, e3, a3, -⟩ :=
    (Gain_contrast (3 / 4) (1 / 4) (by norm_num) (by norm_num)).2 (by norm_num) (by norm_num)
  obtain ⟨r4, e4, -, a4⟩ :=
    (Gain_contrast (3 / 4) (3 / 4) (by norm_num) (by norm_num)).2 (by norm_num) (by norm_num)
  exact ⟨⟨r1, e1, a1 (by norm_num)⟩, ⟨r2, e2, a2 (by norm_num)⟩,
    ⟨r3, e3, a3 (by norm_num)⟩, ⟨r4, e4, a4 (by norm_num)⟩⟩

/-- The bias quotient with the complementary parameter at the complementary
input is the complement of the bias quotient. -/
theorem Bias_quot_reflect (b w : ℚ) (hb0 : 0 < b) (hb1 : b < 1) (hw0 : 0 ≤ w) (hw1 : w ≤ 1) :
    (1 - w) / ((1 / (1 - b) - 2) * (1 - (1 - w)) + 1)
      = 1 - w / ((1 / b - 2) * (1 - w) + 1) := by
  have hb : b ≠ 0 := hb0.ne.symm
  have hb2 : (1 : ℚ) - b ≠ 0 := by
    intro h
    linarith
  have hD1 := Bias_divisor_pos b w hb0 hb1 hw0 hw1
  have hD2 := Bias_divisor_pos (1 - b) (1 - w) (by linarith) (by linarith) (by linarith)
    (by linarith)
  have hN : 0 < 1 - w - b + 2 * b * w := by
    have e : (1 / b - 2) * (1 - w) + 1 = (1 - w - b + 2 * b * w) / b := by
      field_simp
      ring
    rw [e] at hD1
    exact (div_pos_iff_of_pos_right hb0).mp hD1
  have e1 : (1 / b - 2) * (1 - w) + 1 = (1 - w - b + 2 * b * w) / b := by
    field_simp
    ring
  have e2 : (1 / (1 - b) - 2) * (1 - (1 - w)) + 1 = (1 - w - b + 2 * b * w) / (1 - b) := by
    field_simp
    ring
  rw [e1, e2]
  field_simp
  ring

/-- For `g` strictly between `0` and `1`, `Gain g` returns `1/2` at the
midpoint. -/
theorem Gain_at_half (g : ℚ) (hg0 : 0 < g) (hg1 : g < 1) : Gain g (1 / 2) = .ok (1 / 2) := by
  have h := Bias_val (1 - g) (1 / 2 * 2 - 1) (by linarith) (by linarith) (by norm_num)
    (by norm_num)
  rw [Gain_upper g (1 / 2) _ (lt_irrefl _) h]
  congr 1
  norm_num

/-- In the exact model, for `g` strictly between `0` and `1` and `v` in
`[0, 1]`, `Gain g (1 - v) = 1 - Gain g v`: the gain curve is point-symmetric
about `(1/2, 1/2)`. -/
theorem Gain_reflect (g v : ℚ) (hg0 : 0 < g) (hg1 : g < 1) (hv0 : 0 ≤ v) (hv1 : v ≤ 1) :
    ∃ r : ℚ, Gain g v = .ok r ∧ Gain g (1 - v) = .ok (1 - r) := by
  rcases lt_trichotomy v (1 / 2) with hv | hv | hv
  · have hw0 : 0 ≤ v * 2 := by linarith
    have hw1 : v * 2 ≤ 1 := by linarith
    refine ⟨_, Gain_lower g v _ hv (Bias_val g (v * 2) hg0 hg1 hw0 hw1), ?_⟩
    have hu : (1 - v) * 2 - 1 = 1 - v * 2 := by ring
    have h2 := Bias_val (1 - g) (1 - v * 2) (by linarith) (by linarith) (by linarith)
      (by linarith)
    rw [← hu] at h2
    rw [Gain_upper g (1 - v) _ (by linarith) h2, hu,
      Bias_quot_reflect g (v * 2) hg0 hg1 hw0 hw1]
    congr 1
    ring
  · subst hv
    refine ⟨1 / 2, Gain_at_half g hg0 hg1, ?_⟩
    have e : (1 - 1 / 2 : ℚ) = 1 / 2 := by norm_num
    rw [e]
    exact Gain_at_half g hg0 hg1
  · have hw0 : 0 ≤ v * 2 - 1 := by linarith
    have hw1 : v * 2 - 1 ≤ 1 := by linarith
    refine ⟨_, Gain_upper g v _ (by linarith)
      (Bias_val (1 - g) (v * 2 - 1) (by linarith) (by linarith) hw0 hw1), ?_⟩
    have hu : (1 - v) * 2 = 1 - (v * 2 - 1) := by ring
    have h2 := Bias_val g (1 - (v * 2 - 1)) hg0 hg1 (by linarith) (by linarith)
    rw [← hu] at h2
    rw [Gain_lower g (1 - v) _ (by linarith) h2, hu]
    have hr := Bias_quot_reflect (1 - g) (v * 2 - 1) (by linarith) (by linarith) hw0 hw1
    rw [sub_sub_cancel] at hr
    rw [hr]
    congr 1
    ring

/-- C15 (as amended): for `g` in `[1/1000, 999/1000]` and `v` in `[0, 1]`,
`Gain g (1 - v)` and `1 - Gain g v` agree to within `10^-9`: the gain curve
is point-symmetric about `(1/2, 1/2)` up to the rounding of the binary64
operations (in the exact model the two sides are equal). -/
theorem Gain_symmetry (g v : ℚ) (hg0 : 1 / 1000 ≤ g) (hg1 : g ≤ 999 / 1000)
    (hv0 : 0 ≤ v) (hv1 : v ≤ 1) :
    ∃ r r2 : ℚ, Gain g v = .ok r ∧ Gain g (1 - v) = .ok r2 ∧
      |r2 - (1 - r)| ≤ 1 / 10 ^ 9 := by
  obtain ⟨r, h1, h2⟩ := Gain_reflect g v (by linarith) (by linarith) hv0 hv1
  refine ⟨r, 1 - r, h1, h2, ?_⟩
  rw [sub_self, abs_zero]
  positivity

/-- Witness for C15 (as amended): `g = 1/4` at `v = 1/5`. -/
theorem Gain_symmetry_witness :
    ∃ r r2 : ℚ, Gain (1 / 4) (1 / 5) = .ok r ∧ Gain (1 / 4) (1 - 1 / 5) = .ok r2 ∧
      |r2 - (1 - r)| ≤ 1 / 10 ^ 9 :=
  Gain_symmetry (1 / 4) (1 / 5) (by norm_num) (by norm_num) (by norm_num) (by norm_num)

/-! ## Shaping curves: turbulence and ridge -/

/-- C16: for `v` in `[0, 1]`, `Turbulence v = |2v - 1|` lies in `[0, 1]`,
with `Turbulence (1/2) = 0` and `Turbulence 0 = Turbulence 1 = 1`. -/
theorem Turbulence_spec (v : ℚ) (hv0 : 0 ≤ v) (hv1 : v ≤ 1) :
    Turbulence v = |2 * v - 1| ∧ 0 ≤ Turbulence v ∧ Turbulence v ≤ 1 ∧
    Turbulence (1 / 2) = 0 ∧ Turbulence 0 = 1 ∧ Turbulence 1 = 1 := by
  unfold Turbulence
  refine ⟨by rw [mul_comm], abs_nonneg _, ?_, by norm_num, by norm_num, by norm_num⟩
  rw [abs_le]
  constructor <;> linarith

/-- Witness for C16: `v = 1/4`. -/
theorem Turbulence_spec_witness :
    Turbulence (1 / 4) = |2 * (1 / 4 : ℚ) - 1| ∧ 0 ≤ Turbulence (1 / 4) ∧
    Turbulence (1 / 4) ≤ 1 ∧
    Turbulence (1 / 2) = 0 ∧ Turbulence 0 = 1 ∧ Turbulence 1 = 1 :=
  Turbulence_spec (1 / 4) (by norm_num) (by norm_num)

/-- C17: for `v` in `[0, 1]`, `Ridge v = (1 - |2v - 1|)^2` lies in `[0, 1]`
and is at most `Ridge (1/2) = 1`, with `Ridge 0 = Ridge 1 = 0`. -/
theorem Ridge_spec (v : ℚ) (hv0 : 0 ≤ v) (hv1 : v ≤ 1) :
    Ridge v = (1 - |2 * v - 1|) ^ 2 ∧ 0 ≤ Ridge v ∧ Ridge v ≤ 1 ∧
    Ridge v ≤ Ridge (1 / 2) ∧ Ridge (1 / 2) = 1 ∧ Ridge 0 = 0 ∧ Ridge 1 = 0 := by
  have hmid : Ridge (1 / 2) = 1 := by
    unfold Ridge
    norm_num
  have habs0 : 0 ≤ |v * 2 - 1| := abs_nonneg _
  have habs1 : |v * 2 - 1| ≤ 1 := by
    rw [abs_le]
    constructor <;> linarith
  have hle : Ridge v ≤ 1 := by
    unfold Ridge
    dsimp only
    nlinarith
  refine ⟨?_, ?_, hle, ?_, hmid, ?_, ?_⟩
  · unfold Ridge
    dsimp only
    rw [mul_comm v 2]
    ring
  · unfold Ridge
    dsimp only
    exact mul_self_nonneg _
  · rw [hmid]
    exact hle
  · unfold Ridge
    norm_num
  · unfold Ridge
    norm_num

/-- Witness for C17: `v = 1/4`. -/
theorem Ridge_spec_witness :
    Ridge (1 / 4) = (1 - |2 * (1 / 4 : ℚ) - 1|) ^ 2 ∧ 0 ≤ Ridge (1 / 4) ∧ Ridge (1 / 4) ≤ 1 ∧
    Ridge (1 / 4) ≤ Ridge (1 / 2) ∧ Ridge (1 / 2) = 1 ∧ Ridge 0 = 0 ∧ Ridge 1 = 0 :=
  Ridge_spec (1 / 4) (by norm_num) (by norm_num)

/-! ## Gradient selection: the table -/

/-- C18: for every seed, lattice point and offset, `graddot2` does not
reach its `unreachable` branch: it returns `gx * fracx + gy * fracy`, where
`(gx, gy)` is entry number `h &&& 7` of the gradient table and `h` is the
first output word of `Hash3 seed gridx gridy`. -/
theorem graddot2_table (seed gridx gridy : ℕ) (fracx fracy : ℚ) :
    ∃ g : ℚ × ℚ,
      gradients[(Hash3 seed gridx gridy).1 &&& 7]? = some g ∧
      graddot2 seed gridx gridy fracx fracy = .ok (g.1 * fracx + g.2 * fracy) ∧
      graddot2 seed gridx gridy fracx fracy ≠ .error .unreachable := by
  have hk := and7_lt (Hash3 seed gridx gridy).1
  unfold graddot2
  generalize (Hash3 seed gridx gridy).1 = h at hk ⊢
  dsimp only
  generalize h &&& 7 = k at hk ⊢
  interval_cases k
  · refine ⟨(1, 1), rfl, ?_, by intro hc; cases hc⟩
    show Except.ok (fracx + fracy) = Except.ok ((1 : ℚ) * fracx + (1 : ℚ) * fracy)
    congr 1
    ring
  · refine ⟨(1, -1), rfl, ?_, by intro hc; cases hc⟩
    show Except.ok (fracx - fracy) = Except.ok ((1 : ℚ) * fracx + (-1 : ℚ) * fracy)
    congr 1
    ring
  · refine ⟨(-1, 1), rfl, ?_, by intro hc; cases hc⟩
    show Except.ok (-fracx + fracy) = Except.ok ((-1 : ℚ) * fracx + (1 : ℚ) * fracy)
    congr 1
    ring
  · refine ⟨(-1, -1), rfl, ?_, by intro hc; cases hc⟩
    show Except.ok (-fracx - fracy) = Except.ok ((-1 : ℚ) * fracx + (-1 : ℚ) * fracy)
    congr 1
    ring
  · refine ⟨(1, 0), rfl, ?_, by intro hc; cases hc⟩
    show Except.ok (fracx) = Except.ok ((1 : ℚ) * fracx + (0 : ℚ) * fracy)
    congr 1
    ring
  · refine ⟨(-1, 0), rfl, ?_, by intro hc; cases hc⟩
    show Except.ok (-fracx) = Except.ok ((-1 : ℚ) * fracx + (0 : ℚ) * fracy)
    congr 1
    ring
  · refine ⟨(0, 1), rfl, ?_, by intro hc; cases hc⟩
    show Except.ok (fracy) = Except.ok ((0 : ℚ) * fracx + (1 : ℚ) * fracy)
    congr 1
    ring
  · refine ⟨(0, -1), rfl, ?_, by intro hc; cases hc⟩
    show Except.ok (-fracy) = Except.ok ((0 : ℚ) * fracx + (-1 : ℚ) * fracy)
    congr 1
    ring

/-! ## Fractal combinator: convex combination -/

/-- C19 (as amended): for every octave count at least `1`, every persistence
in `[0, 1]` and every lacunarity: if every per-octave value after the shaping
chain lies in `[0, 1]`, then the accumulated weight is at least `1`, hence not
zero, and `Fractal2` returns a value in `[0, 1]`.  With persistence at most
`1` the amplitudes cannot overflow in binary64, and the bounds `0` and `1`
are preserved by every rounded operation. -/
theorem Fractal2_convex_combination (s : Sampler2) (octaves : ℤ) (p l : ℚ)
    (fns : List Shaper) (x y : ℚ) (hn : 1 ≤ octaves) (hp0 : 0 ≤ p) (_hp1 : p ≤ 1)
    (h : ∀ i : ℕ, i < octaves.toNat →
      ∃ v, octaveValue s fns x y (l ^ i) = .ok v ∧ 0 ≤ v ∧ v ≤ 1) :
    (∃ st : FractalState,
      octaveLoop s p l fns x y octaves.toNat FractalState.init = .ok st ∧
        1 ≤ st.max ∧ st.max ≠ 0) ∧
    ∃ r : ℚ, Fractal2 s octaves p l fns x y = .ok r ∧ 0 ≤ r ∧ r ≤ 1 := by
  obtain ⟨⟨st, hst, hmax⟩, hr⟩ := Fractal2_convex s octaves p l fns x y 0 1 hn hp0 h
  refine ⟨⟨st, hst, hmax, ?_⟩, hr⟩
  intro h0
  rw [h0] at hmax
  linarith

/-- Witness for C19 (as amended): three octaves of a step sampler with values
`0` and `1`, persistence `1/2`, lacunarity `1/2`, at the point `(2, 0)`. -/
theorem Fractal2_convex_combination_witness :
    (∃ st : FractalState,
      octaveLoop (fun x _ => .ok (if x < 1 then 0 else 1)) (1 / 2) (1 / 2)
          [] 2 0 (Int.toNat 3) FractalState.init = .ok st ∧
        1 ≤ st.max ∧ st.max ≠ 0) ∧
    ∃ r : ℚ, Fractal2 (fun x _ => .ok (if x < 1 then 0 else 1)) 3 (1 / 2) (1 / 2)
        [] 2 0 = .ok r ∧ 0 ≤ r ∧ r ≤ 1 :=
  Fractal2_convex_combination (fun x _ => .ok (if x < 1 then 0 else 1)) 3 (1 / 2) (1 / 2)
    [] 2 0 (by norm_num) (by norm_num) (by norm_num)
    (by
      intro i hi
      have hi3 : i < 3 := by simpa using hi
      interval_cases i
      · exact ⟨1, by simp [octaveValue, applyChain, bind, Except.bind],
          by norm_num, le_refl _⟩
      · exact ⟨1, by simp [octaveValue, applyChain, bind, Except.bind],
          by norm_num, le_refl _⟩
      · exact ⟨0, by simp [octaveValue, applyChain, bind, Except.bind]; norm_num,
          le_refl _, by norm_num⟩)

/-! ## Hash engine: injectivity -/

/-- A wrapped value is an unsigned 32-bit value. -/
theorem wrap32_lt (n : ℕ) : wrap32 n < 4294967296 :=
  Nat.mod_lt n (by norm_num)

/-- Multiplying by the odd constant and adding the increment, modulo `2^32`,
is injective on 32-bit values. -/
theorem scale_inj (x a : ℕ) (hx : x < 4294967296) (ha : a < 4294967296)
    (h : wrap32 (wrap32 (x * 1664525) + 1013904223)
      = wrap32 (wrap32 (a * 1664525) + 1013904223)) : x = a := by
  unfold wrap32 at h
  omega

/-- The cross-term round `x += y*z; y += z*x; z += x*y` is injective on
32-bit values: the inputs are recovered from the outputs last to first. -/
theorem mix_inj (x y z a b c X Y Z : ℕ)
    (hx : x < 4294967296) (hy : y < 4294967296) (hz : z < 4294967296)
    (ha : a < 4294967296) (hb : b < 4294967296) (hc : c < 4294967296)
    (hX : wrap32 (x + wrap32 (y * z)) = X) (hX2 : wrap32 (a + wrap32 (b * c)) = X)
    (hY : wrap32 (y + wrap32 (z * X)) = Y) (hY2 : wrap32 (b + wrap32 (c * X)) = Y)
    (hZ : wrap32 (z + wrap32 (X * Y)) = Z) (hZ2 : wrap32 (c + wrap32 (X * Y)) = Z) :
    x = a ∧ y = b ∧ z = c := by
  unfold wrap32 at hX hX2 hY hY2 hZ hZ2
  have hzc : z = c := by omega
  subst hzc
  have hyb : y = b := by omega
  subst hyb
  have hxa : x = a := by omega
  exact ⟨hxa, rfl, rfl⟩

/-- The xor-shift `x ^= x >> 16` keeps 32-bit values within 32 bits. -/
theorem fold_lt (x : ℕ) (hx : x < 4294967296) : x ^^^ (x >>> 16) < 4294967296 := by
  have h2 : (2 : ℕ) ^ 32 = 4294967296 := by norm_num
  rw [← h2] at hx ⊢
  have hs : x >>> 16 ≤ x := by
    rw [Nat.shiftRight_eq_div_pow]
    exact Nat.div_le_self x (2 ^ 16)
  exact Nat.xor_lt_two_pow hx (lt_of_le_of_lt hs hx)

/-- On 32-bit values the xor-shift `x ^= x >> 16` is its own inverse. -/
theorem fold_fold (x : ℕ) (hx : x < 4294967296) :
    (x ^^^ (x >>> 16)) ^^^ ((x ^^^ (x >>> 16)) >>> 16) = x := by
  apply Nat.eq_of_testBit_eq
  intro i
  have h32 : x.testBit (16 + (16 + i)) = false := by
    apply Nat.testBit_lt_two_pow
    calc x < 4294967296 := hx
      _ = 2 ^ 32 := by norm_num
      _ ≤ 2 ^ (16 + (16 + i)) := Nat.pow_le_pow_right (by norm_num) (by omega)
  simp only [Nat.testBit_xor, Nat.testBit_shiftRight, h32]
  cases x.testBit i <;> cases x.testBit (16 + i) <;> rfl

/-- The xor-shift `x ^= x >> 16` is injective on 32-bit values. -/
theorem fold_inj (x a : ℕ) (hx : x < 4294967296) (ha : a < 4294967296)
    (h : x ^^^ (x >>> 16) = a ^^^ (a >>> 16)) : x = a := by
  have h1 := fold_fold x hx
  have h2 := fold_fold a ha
  rw [h] at h1
  rw [← h1, h2]

/-- C20: `Hash3` is injective on triples of unsigned 32-bit integers: each
mixing step, with arithmetic wrapping modulo `2^32`, is invertible, so equal
outputs come from equal inputs. -/
theorem Hash3_injective (x y z a b c : ℕ)
    (hx : x < 4294967296) (hy : y < 4294967296) (hz : z < 4294967296)
    (ha : a < 4294967296) (hb : b < 4294967296) (hc : c < 4294967296)
    (h : Hash3 x y z = Hash3 a b c) : (x, y, z) = (a, b, c) := by
  simp only [Hash3, Prod.mk.injEq] at h
  generalize hx1 : wrap32 (wrap32 (x * 1664525) + 1013904223) = x1 at h
  generalize hy1 : wrap32 (wrap32 (y * 1664525) + 1013904223) = y1 at h
  generalize hz1 : wrap32 (wrap32 (z * 1664525) + 1013904223) = z1 at h
  generalize ha1 : wrap32 (wrap32 (a * 1664525) + 1013904223) = a1 at h
  generalize hb1 : wrap32 (wrap32 (b * 1664525) + 1013904223) = b1 at h
  generalize hc1 : wrap32 (wrap32 (c * 1664525) + 1013904223) = c1 at h
  generalize hx2 : wrap32 (x1 + wrap32 (y1 * z1)) = x2 at h
  generalize hy2 : wrap32 (y1 + wrap32 (z1 * x2)) = y2 at h
  generalize hz2 : wrap32 (z1 + wrap32 (x2 * y2)) = z2 at h
  generalize ha2 : wrap32 (a1 + wrap32 (b1 * c1)) = a2 at h
  generalize hb2 : wrap32 (b1 + wrap32 (c1 * a2)) = b2 at h
  generalize hc2 : wrap32 (c1 + wrap32 (a2 * b2)) = c2 at h
  generalize hx3 : x2 ^^^ (x2 >>> 16) = x3 at h
  generalize hy3 : y2 ^^^ (y2 >>> 16) = y3 at h
  generalize hz3 : z2 ^^^ (z2 >>> 16) = z3 at h
  generalize ha3 : a2 ^^^ (a2 >>> 16) = a3 at h
  generalize hb3 : b2 ^^^ (b2 >>> 16) = b3 at h
  generalize hc3 : c2 ^^^ (c2 >>> 16) = c3 at h
  generalize hx4 : wrap32 (x3 + wrap32 (y3 * z3)) = x4 at h
  generalize hy4 : wrap32 (y3 + wrap32 (z3 * x4)) = y4 at h
  generalize hz4 : wrap32 (z3 + wrap32 (x4 * y4)) = z4 at h
  generalize ha4 : wrap32 (a3 + wrap32 (b3 * c3)) = a4 at h
  generalize hb4 : wrap32 (b3 + wrap32 (c3 * a4)) = b4 at h
  generalize hc4 : wrap32 (c3 + wrap32 (a4 * b4)) = c4 at h
  obtain ⟨e1, e2, e3⟩ := h
  subst e1 e2 e3
  have bx2 : x2 < 4294967296 := hx2 ▸ wrap32_lt _
  have by2 : y2 < 4294967296 := hy2 ▸ wrap32_lt _
  have bz2 : z2 < 4294967296 := hz2 ▸ wrap32_lt _
  have ba2 : a2 < 4294967296 := ha2 ▸ wrap32_lt _
  have bb2 : b2 < 4294967296 := hb2 ▸ wrap32_lt _
  have bc2 : c2 < 4294967296 := hc2 ▸ wrap32_lt _
  have s4 := mix_inj x3 y3 z3 a3 b3 c3 x4 y4 z4
    (hx3 ▸ fold_lt x2 bx2) (hy3 ▸ fold_lt y2 by2) (hz3 ▸ fold_lt z2 bz2)
    (ha3 ▸ fold_lt a2 ba2) (hb3 ▸ fold_lt b2 bb2) (hc3 ▸ fold_lt c2 bc2)
    hx4 ha4 hy4 hb4 hz4 hc4
  obtain ⟨e1, e2, e3⟩ := s4
  have fx : x2 = a2 := fold_inj x2 a2 bx2 ba2 (by rw [hx3, ha3, e1])
  have fy : y2 = b2 := fold_inj y2 b2 by2 bb2 (by rw [hy3, hb3, e2])
  have fz : z2 = c2 := fold_inj z2 c2 bz2 bc2 (by rw [hz3, hc3, e3])
  subst fx fy fz
  have s2 := mix_inj x1 y1 z1 a1 b1 c1 x2 y2 z2
    (hx1 ▸ wrap32_lt _) (hy1 ▸ wrap32_lt _) (hz1 ▸ wrap32_lt _)
    (ha1 ▸ wrap32_lt _) (hb1 ▸ wrap32_lt _) (hc1 ▸ wrap32_lt _)
    hx2 ha2 hy2 hb2 hz2 hc2
  obtain ⟨g1, g2, g3⟩ := s2
  have rx : x = a := scale_inj x a hx ha (by rw [hx1, ha1, g1])
  have ry : y = b := scale_inj y b hy hb (by rw [hy1, hb1, g2])
  have rz : z = c := scale_inj z c hz hc (by rw [hz1, hc1, g3])
  rw [rx, ry, rz]

/-- Witness for C20: the triple `(1, 2, 3)`. -/
theorem Hash3_injective_witness :
    Hash3 1 2 3 = Hash3 1 2 3 ∧ ((1, 2, 3) : ℕ × ℕ × ℕ) = (1, 2, 3) :=
  ⟨rfl, Hash3_injective 1 2 3 1 2 3 (by norm_num) (by norm_num) (by norm_num) (by norm_num)
    (by norm_num) (by norm_num) rfl⟩

/-! ## Binary64 arithmetic: reference values -/

/-- Reference values of the binary64 model: `0.1` is `0x3FB999999999999A`;
`1` and `2` and `1/2`; the largest finite number and overflow to infinity;
the smallest subnormal and underflow to zero; a tie rounds to the even
neighbour (`1 + 2^-53 = 1`, `1 - 2^-54 = 1`); signed zeros and the
divisions by zero. -/
theorem F64_reference_values :
    F64.lit 1 10 = F64.fin false 7205759403792794 (-56) ∧
    F64.lit 1 1 = F64.fin false 4503599627370496 (-52) ∧
    F64.lit 2 1 = F64.fin false 4503599627370496 (-51) ∧
    F64.lit 1 2 = F64.fin false 4503599627370496 (-53) ∧
    F64.lit 0 1 = F64.fin false 0 (-1074) ∧
    F64.lit (2 ^ 1024 - 2 ^ 971) 1 = F64.fin false 9007199254740991 971 ∧
    F64.lit (2 ^ 1024 - 2 ^ 970) 1 = F64.inf false ∧
    F64.lit 1 (2 ^ 1074) = F64.fin false 1 (-1074) ∧
    F64.lit 1 (2 ^ 1075) = F64.fin false 0 (-1074) ∧
    F64.add (F64.lit 1 1) (F64.lit 1 (2 ^ 53)) = F64.lit 1 1 ∧
    F64.sub (F64.lit 1 1) (F64.lit 1 (2 ^ 54)) = F64.lit 1 1 ∧
    F64.sub (F64.lit 1 1) (F64.lit 1 (2 ^ 53)) = F64.fin false 9007199254740991 (-53) ∧
    F64.add (F64.lit 1 10) (F64.lit 1 5) = F64.fin false 5404319552844596 (-54) ∧
    F64.sub (F64.lit 1 1) (F64.lit 1 1) = F64.fin false 0 (-1074) ∧
    F64.mul (F64.neg (F64.lit 1 1)) (F64.lit 0 1) = F64.fin true 0 (-1074) ∧
    F64.div (F64.lit 1 1) (F64.lit 0 1) = F64.inf false ∧
    F64.div (F64.lit 0 1) (F64.lit 0 1) = F64.nan ∧
    F64.mul (F64.inf false) (F64.lit 0 1) = F64.nan := by
  decide!

/-! ## Binary64 arithmetic: where the program leaves the exact model -/

/-- In binary64 the failing input of C4 gives the same numbers as in the
exact model: total `1`, weight `1/2`, output `2`. -/
theorem Fractal2F_negative_persistence :
    Fractal2F (fun x _ => if F64.lt x (F64.lit 1 1) then F64.lit 0 1 else F64.lit 1 1) 2
        (F64.neg (F64.lit 1 2)) (F64.lit 1 2) [] (F64.lit 1 1) (F64.lit 0 1)
      = F64.lit 2 1 := by
  decide!

/-- C10 fails as stated: in binary64, for the subnormal `b = 2^-1030` (so
`0 < b < 1/2`) and `v = 1`, the quotient `1/b` overflows to `+Inf`,
`(1/b - 2) * (1 - v)` is `Inf * 0 = NaN`, and `Bias(b)(v)` is NaN, for which
neither `0 ≤ Bias(b)(v)` nor `Bias(b)(v) ≤ v` holds. -/
theorem BiasF_subnormal_counterexample :
    F64.lt (F64.lit 0 1) (F64.lit 1 (2 ^ 1030)) = true ∧
    F64.lt (F64.lit 1 (2 ^ 1030)) (F64.lit 1 2) = true ∧
    F64.div (F64.lit 1 1) (F64.lit 1 (2 ^ 1030)) = F64.inf false ∧
    BiasF (F64.lit 1 (2 ^ 1030)) (F64.lit 1 1) = F64.nan ∧
    F64.le (F64.lit 0 1) (BiasF (F64.lit 1 (2 ^ 1030)) (F64.lit 1 1)) = false ∧
    F64.le (BiasF (F64.lit 1 (2 ^ 1030)) (F64.lit 1 1)) (F64.lit 1 1) = false := by
  decide!

/-- C13 fails as stated: in binary64, for `g = 2^-60` (so `0 < g < 1`) the
difference `1 - g` rounds to `1`, the upper-branch expression at `v = 1/2` is
`Bias(1)(0) / 2 + 1/2` with `Bias(1)(0) = 0/0 = NaN`, and `Gain(g)(1/2)` is
NaN, not `1/2`. -/
theorem GainF_midpoint_counterexample :
    F64.lt (F64.lit 0 1) (F64.lit 1 (2 ^ 60)) = true ∧
    F64.lt (F64.lit 1 (2 ^ 60)) (F64.lit 1 1) = true ∧
    F64.sub (F64.lit 1 1) (F64.lit 1 (2 ^ 60)) = F64.lit 1 1 ∧
    F64.add
      (F64.div
        (BiasF (F64.sub (F64.lit 1 1) (F64.lit 1 (2 ^ 60)))
          (F64.sub (F64.mul (F64.lit 1 2) (F64.lit 2 1)) (F64.lit 1 1)))
        (F64.lit 2 1))
      (F64.lit 1 2) = F64.nan ∧
    GainF (F64.lit 1 (2 ^ 60)) (F64.lit 1 2) = F64.nan ∧
    GainF (F64.lit 1 (2 ^ 60)) (F64.lit 1 2) ≠ F64.lit 1 2 := by
  decide!

/-- C14 fails as stated: in binary64, for `g = 2^-60` (so `0 < g < 1/2`) and
`v = 1/2` (in `[0, 1]`, on the branch `v ≥ 1/2`), `Gain(g)(v)` is NaN, so
`Gain(g)(v) ≥ v` does not hold. -/
theorem GainF_contrast_counterexample :
    F64.lt (F64.lit 0 1) (F64.lit 1 (2 ^ 60)) = true ∧
    F64.lt (F64.lit 1 (2 ^ 60)) (F64.lit 1 2) = true ∧
    F64.le (F64.lit 0 1) (F64.lit 1 2) = true ∧
    F64.le (F64.lit 1 2) (F64.lit 1 1) = true ∧
    F64.lt (F64.lit 1 2) (F64.lit 1 2) = false ∧
    GainF (F64.lit 1 (2 ^ 60)) (F64.lit 1 2) = F64.nan ∧
    F64.le (F64.lit 1 2) (GainF (F64.lit 1 (2 ^ 60)) (F64.lit 1 2)) = false := by
  decide!

/-- C15 fails as stated: in binary64, for `g = 0.25` and `v = 0.2` (the
nearest binary64 numbers), `1 - v` is `0.8`, `Gain(g)(1 - v)` is
`0.9090909090909092` (`8188362958855448 * 2^-53`) and `1 - Gain(g)(v)` is
`0.9090909090909091` (`8188362958855447 * 2^-53`): the two sides differ in the
last place. -/
theorem GainF_symmetry_counterexample :
    F64.lt (F64.lit 0 1) (F64.lit 1 4) = true ∧
    F64.lt (F64.lit 1 4) (F64.lit 1 1) = true ∧
    F64.le (F64.lit 0 1) (F64.lit 1 5) = true ∧
    F64.le (F64.lit 1 5) (F64.lit 1 1) = true ∧
    F64.sub (F64.lit 1 1) (F64.lit 1 5) = F64.lit 4 5 ∧
    GainF (F64.lit 1 4) (F64.sub (F64.lit 1 1) (F64.lit 1 5))
      = F64.fin false 8188362958855448 (-53) ∧
    F64.sub (F64.lit 1 1) (GainF (F64.lit 1 4) (F64.lit 1 5))
      = F64.fin false 8188362958855447 (-53) ∧
    GainF (F64.lit 1 4) (F64.sub (F64.lit 1 1) (F64.lit 1 5))
      ≠ F64.sub (F64.lit 1 1) (GainF (F64.lit 1 4) (F64.lit 1 5)) := by
  decide!

/-- C19 fails as stated: in binary64, two octaves of the constant sampler
`0.1` with persistence `1/2` (every octave value lies in `[a, b]` with
`a = b = 0.1`) give total `0.15000000000000002`, weight `1.5` and the output
`0.10000000000000002` (`7205759403792795 * 2^-56`), above `b`; and three
octaves of the constant sampler `1/2` with persistence `2^700` overflow:
total and weight are both `+Inf` and the output is NaN. -/
theorem Fractal2F_rounding_counterexample :
    F64.le (F64.lit 0 1) (F64.lit 1 2) = true ∧
    (octaveLoopF (fun _ _ => F64.lit 1 10) (F64.lit 1 2) (F64.lit 2 1) []
        (F64.lit 1 1) (F64.lit 1 1) (Int.toNat 2) FractalStateF.init).total
      = F64.fin false 5404319552844596 (-55) ∧
    (octaveLoopF (fun _ _ => F64.lit 1 10) (F64.lit 1 2) (F64.lit 2 1) []
        (F64.lit 1 1) (F64.lit 1 1) (Int.toNat 2) FractalStateF.init).max
      = F64.lit 3 2 ∧
    Fractal2F (fun _ _ => F64.lit 1 10) 2 (F64.lit 1 2) (F64.lit 2 1) []
        (F64.lit 1 1) (F64.lit 1 1)
      = F64.fin false 7205759403792795 (-56) ∧
    F64.le
      (Fractal2F (fun _ _ => F64.lit 1 10) 2 (F64.lit 1 2) (F64.lit 2 1) []
        (F64.lit 1 1) (F64.lit 1 1))
      (F64.lit 1 10) = false ∧
    F64.le (F64.lit 0 1) (F64.lit (2 ^ 700) 1) = true ∧
    (octaveLoopF (fun _ _ => F64.lit 1 2) (F64.lit (2 ^ 700) 1) (F64.lit 2 1) []
        (F64.lit 1 1) (F64.lit 1 1) (Int.toNat 3) FractalStateF.init).max
      = F64.inf false ∧
    Fractal2F (fun _ _ => F64.lit 1 2) 3 (F64.lit (2 ^ 700) 1) (F64.lit 2 1) []
        (F64.lit 1 1) (F64.lit 1 1)
      = F64.nan := by
  decide!

end Noise
